import Mathlib

/-!
# Verification of the token alignment and compact-diff engine of `get-editions.py`

This file embeds the algorithmic core of the repository in Lean 4:

* `joinWords` models `join_words` (reassembling tokens into a verse string,
  attaching punctuation to the preceding word);
* the `findLongestMatch` / `getMatchingBlocks` / `getOpcodes` family models the
  parts of Python's `difflib.SequenceMatcher` exercised by `difflib.ndiff` on
  word lists (the matcher is created with `isjunk = None` and the default
  `autojunk = True`, so the junk set is empty and only the "popular element"
  filter of `__chain_b` can remove entries from `b2j`);
* `ndiffModel` models the sequence of `' '` / `'-'` / `'+'` coded lines that
  `difflib.ndiff` yields and `compute_compact_diff` consumes;
* `computeCompactDiff` models `compute_compact_diff` itself: whitespace
  tokenisation via `str.split()`, then a left-to-right scan of the coded lines
  grouping consecutive changes into regions;
* `versionDiffs` models the per-verse filtering loop of `save_chapter_json`
  (verses with an empty diff are omitted).

Modelling notes, justified by lemmas below:

* Inside a `replace` opcode region that contains no identical word pair,
  `Differ._fancy_replace` emits exactly the `'-'` lines of the base slice (in
  order) and the `'+'` lines of the other slice (in order), interleaved in some
  order determined by character-level similarity ratios, plus `'?'` guide
  lines.  `compute_compact_diff` ignores `'?'` lines and, as
  `compactScan_merge_invariant` proves, its output is invariant under every
  interleaving of the `'-'` and `'+'` lines of such a region (no `' '` line
  separates them).  `scriptOfOpcodes` therefore emits the `'-'` lines first and
  the `'+'` lines second, and omits the `'?'` lines.
* A `replace` region can contain an identical word pair only when the autojunk
  filter hid it from the matcher, which requires the other sequence to hold at
  least 200 tokens; in that case `_fancy_replace` may emit a `' '` line at such
  a pair, but only when no pair of the region exceeds the floating-point
  similarity cutoff, a choice that depends on IEEE-754 rounding and is outside
  exact arithmetic.  `scriptOfOpcodes` always uses the plain emission; below
  200 other-side tokens (every verse in the data) the two agree exactly.
  The lemmas proved only at the script level (`compactScan` over an arbitrary
  coded-line list) hold for either emission.
* `SequenceMatcher.find_longest_match` ends with two further extension loops
  that extend the match over *junk* elements; with `isjunk = None` the junk set
  is empty, their guards are always false, and they are omitted here.
* `get_matching_blocks` explores subranges through an explicit queue and sorts
  the collected blocks afterwards; the recursion in `matchBlocksF` visits the
  same subranges in left-to-right order and therefore produces that sorted
  list directly.
-/

set_option autoImplicit false

namespace BomEditions

/-! ## String helpers: Python `str.split()` / `str.strip()` / `str.rstrip()` -/

/-- Whitespace characters recognised by Python's `str.split()` and `str.strip()`
(for the ASCII range used by the data). -/
def isPySpace (c : Char) : Bool :=
  c = ' ' ∨ c = '\t' ∨ c = '\n' ∨ c = '\r' ∨ c = '\x0b' ∨ c = '\x0c'

/-- Core of `str.split()`: split a character list on runs of whitespace,
dropping empty pieces.  The first argument is the reversed accumulator of the
current word. -/
def splitChars : List Char → List Char → List (List Char)
  | [], acc => if acc = [] then [] else [acc.reverse]
  | c :: cs, acc =>
      if isPySpace c then
        (if acc = [] then [] else [acc.reverse]) ++ splitChars cs []
      else
        splitChars cs (c :: acc)

/-- `s.split()` with no argument: split on whitespace runs, no empty tokens. -/
def pySplit (s : String) : List String :=
  (splitChars s.toList []).map (fun cs => String.mk cs)

/-- `dropWhile isPySpace` on the left: Python `str.lstrip()`. -/
def lstripL (cs : List Char) : List Char := cs.dropWhile isPySpace

/-- Python `str.rstrip()` on character lists. -/
def rstripL (cs : List Char) : List Char := (cs.reverse.dropWhile isPySpace).reverse

/-- Python `str.strip()` on character lists. -/
def stripL (cs : List Char) : List Char := rstripL (lstripL cs)

/-- Python `str.rstrip()`. -/
def pyRstrip (s : String) : String := String.mk (rstripL s.toList)

/-- Python `str.strip()`. -/
def pyStrip (s : String) : String := String.mk (stripL s.toList)

/-! ## `join_words` -/

/-- The punctuation marks that `join_words` attaches to the preceding word. -/
def PUNCT : List String := [",", ".", ";", ":", "?", "!", "—"]

/-- One iteration of the loop in `join_words`: skip falsy (empty) words, attach
punctuation to the stripped end of the accumulated text, otherwise append the
word followed by a space. -/
def joinStep (text : String) (w : String) : String :=
  if w = "" then text
  else if w ∈ PUNCT then pyRstrip text ++ w ++ " "
  else text ++ w ++ " "

/-- `join_words`: reassemble tokens into a verse string with proper
spacing/punctuation. -/
def joinWords (ws : List String) : String :=
  pyStrip (ws.foldl joinStep "")

/-! ## `difflib.SequenceMatcher`, word-level

`compute_compact_diff` calls `ndiff(base_words, other_words)`, which runs
`SequenceMatcher(None, a, b)` over the word lists.  `b2j` maps each word of `b`
to its (ascending) positions in `b`; with `isjunk = None` nothing is junk, and
the `autojunk` heuristic removes *popular* entries when `len(b) >= 200`. -/

/-- Positions of word `w` in `b` (the `b2j` table before the autojunk filter). -/
def b2jAll (b : List String) (w : String) : List Nat :=
  (List.range b.length).filter (fun j => b.getD j "" = w)

/-- `b2j` after `__chain_b`'s autojunk filter: when `len(b) >= 200`, words
occurring more than `len(b) // 100 + 1` times are dropped from the table. -/
def b2jF (b : List String) (w : String) : List Nat :=
  if 200 ≤ b.length ∧ b.length / 100 + 1 < (b2jAll b w).length then []
  else b2jAll b w

/-- `j2len.get(j, 0)` on the association-list representation of the DP row. -/
def lookupJ2 (m : List (Nat × Nat)) (j : Nat) : Nat :=
  match m.find? (fun p => p.1 = j) with
  | some p => p.2
  | none => 0

/-- Inner loop of `find_longest_match` for one row `i`: walk the positions `js`
of `a[i]` in `b` (ascending), skipping `j < blo` (`continue`) and stopping at
`j >= bhi` (`break`); each kept `j` records
`newj2len[j] = j2len.get(j-1, 0) + 1` (with `j2len.get(-1, 0) = 0` when
`j = 0`) and updates the best match on a strictly larger size. -/
def flmInner (prev : List (Nat × Nat)) (i blo bhi : Nat) :
    List Nat → List (Nat × Nat) → Nat × Nat × Nat → List (Nat × Nat) × (Nat × Nat × Nat)
  | [], new, best => (new, best)
  | j :: js, new, best =>
      if j < blo then flmInner prev i blo bhi js new best
      else if bhi ≤ j then (new, best)
      else
        let k := (if j = 0 then 0 else lookupJ2 prev (j - 1)) + 1
        let new' := new ++ [(j, k)]
        let best' := if best.2.2 < k then (i + 1 - k, j + 1 - k, k) else best
        flmInner prev i blo bhi js new' best'

/-- Outer loop of `find_longest_match`: one DP row per `i` in
`range(alo, ahi)`, threading the previous row's `j2len` and the best match. -/
def flmRows (a b : List String) (blo bhi : Nat) :
    List Nat → List (Nat × Nat) → Nat × Nat × Nat → List (Nat × Nat) × (Nat × Nat × Nat)
  | [], m, best => (m, best)
  | i :: is, m, best =>
      let r := flmInner m i blo bhi (b2jF b (a.getD i "")) [] best
      flmRows a b blo bhi is r.1 r.2

/-- First extension loop of `find_longest_match`: grow the match to the left
over equal (non-junk; the junk set is empty here) elements. -/
def extendLo (a b : List String) (alo blo : Nat) : Nat → Nat → Nat → Nat × Nat × Nat
  | 0, bj, bs => (0, bj, bs)
  | bi + 1, bj, bs =>
      if alo < bi + 1 ∧ blo < bj ∧ a.getD (bi + 1 - 1) "" = b.getD (bj - 1) "" then
        extendLo a b alo blo bi (bj - 1) (bs + 1)
      else (bi + 1, bj, bs)

/-- Fuelled second extension loop of `find_longest_match`; `extendHi` supplies
the exact fuel `ahi - (bi + bs)`, which the loop condition keeps in step. -/
def extendHiF (a b : List String) (ahi bhi : Nat) : Nat → Nat → Nat → Nat → Nat × Nat × Nat
  | 0, bi, bj, bs => (bi, bj, bs)
  | f + 1, bi, bj, bs =>
      if bi + bs < ahi ∧ bj + bs < bhi ∧ a.getD (bi + bs) "" = b.getD (bj + bs) "" then
        extendHiF a b ahi bhi f bi bj (bs + 1)
      else (bi, bj, bs)

/-- Second extension loop of `find_longest_match`: grow the match to the right
over equal (non-junk) elements. -/
def extendHi (a b : List String) (ahi bhi : Nat) (bi bj bs : Nat) : Nat × Nat × Nat :=
  extendHiF a b ahi bhi (ahi - (bi + bs)) bi bj bs

/-- `find_longest_match(alo, ahi, blo, bhi)`: DP over the rows, then the two
extension loops (the two junk-extension loops of the source never fire because
the junk set is empty for `ndiff`'s word-level matcher). -/
def findLongestMatch (a b : List String) (alo ahi blo bhi : Nat) : Nat × Nat × Nat :=
  let r := flmRows a b blo bhi (List.range' alo (ahi - alo)) [] (alo, blo, 0)
  let e := extendLo a b alo blo r.2.1 r.2.2.1 r.2.2.2
  extendHi a b ahi bhi e.1 e.2.1 e.2.2

/-- Recursive core of `get_matching_blocks`, fuelled (the fuel only needs to
exceed the total range size; `matchBlocks` supplies enough).  Visiting the left
subrange, the found block, then the right subrange reproduces the sorted block
list that the source builds with a queue and a final sort. -/
def matchBlocksF (a b : List String) : Nat → Nat → Nat → Nat → Nat → List (Nat × Nat × Nat)
  | 0, _, _, _, _ => []
  | fuel + 1, alo, ahi, blo, bhi =>
      let m := findLongestMatch a b alo ahi blo bhi
      let i := m.1
      let j := m.2.1
      let k := m.2.2
      if k = 0 then []
      else
        (if alo < i ∧ blo < j then matchBlocksF a b fuel alo i blo j else [])
          ++ (i, j, k) ::
            (if i + k < ahi ∧ j + k < bhi then matchBlocksF a b fuel (i + k) ahi (j + k) bhi
             else [])

/-- The sorted matching blocks of the full sequences (before merging). -/
def matchBlocks (a b : List String) : List (Nat × Nat × Nat) :=
  matchBlocksF a b (a.length + b.length + 1) 0 a.length 0 b.length

/-- Second phase of `get_matching_blocks`: collapse adjacent blocks.  The
accumulator `(i1, j1, k1)` starts at `(0, 0, 0)` and a block is emitted only
when non-empty. -/
def mergeBlocks : Nat → Nat → Nat → List (Nat × Nat × Nat) → List (Nat × Nat × Nat)
  | i1, j1, k1, [] => if k1 ≠ 0 then [(i1, j1, k1)] else []
  | i1, j1, k1, (i2, j2, k2) :: rest =>
      if i1 + k1 = i2 ∧ j1 + k1 = j2 then mergeBlocks i1 j1 (k1 + k2) rest
      else
        (if k1 ≠ 0 then [(i1, j1, k1)] else []) ++ mergeBlocks i2 j2 k2 rest

/-- `get_matching_blocks()`: merged blocks plus the `(la, lb, 0)` sentinel. -/
def getMatchingBlocks (a b : List String) : List (Nat × Nat × Nat) :=
  mergeBlocks 0 0 0 (matchBlocks a b) ++ [(a.length, b.length, 0)]

/-- Opcode tags of `get_opcodes()`. -/
inductive Tag where
  | replace
  | delete
  | insert
  | equal
deriving Repr, DecidableEq

/-- The loop of `get_opcodes()`: walk the matching blocks keeping the current
`(i, j)` position; a gap before a block yields a `replace`/`delete`/`insert`
opcode and a non-empty block yields an `equal` opcode. -/
def opcodesLoop : Nat → Nat → List (Nat × Nat × Nat) → List (Tag × Nat × Nat × Nat × Nat)
  | _, _, [] => []
  | i, j, (ai, bj, size) :: rest =>
      (if i < ai ∧ j < bj then [(Tag.replace, i, ai, j, bj)]
       else if i < ai then [(Tag.delete, i, ai, j, bj)]
       else if j < bj then [(Tag.insert, i, ai, j, bj)]
       else [])
        ++ (if size ≠ 0 then [(Tag.equal, ai, ai + size, bj, bj + size)] else [])
        ++ opcodesLoop (ai + size) (bj + size) rest

/-- `get_opcodes()` for the full sequences. -/
def getOpcodes (a b : List String) : List (Tag × Nat × Nat × Nat × Nat) :=
  opcodesLoop 0 0 (getMatchingBlocks a b)

/-! ## `difflib.ndiff`, restricted to the codes `compute_compact_diff` reads -/

/-- Python slice `xs[lo:hi]`. -/
def slice {α : Type} (xs : List α) (lo hi : Nat) : List α := (xs.take hi).drop lo

/-- `Differ._dump`: one coded line per element. -/
def dumpLines (code : Char) (xs : List String) : List (Char × String) :=
  xs.map (fun w => (code, w))

/-- The coded lines produced for one opcode list (see the header note on the
ordering inside `replace` regions and on the omitted `'?'` guide lines). -/
def scriptOfOpcodes (a b : List String) : List (Tag × Nat × Nat × Nat × Nat) → List (Char × String)
  | [] => []
  | (tag, alo, ahi, blo, bhi) :: rest =>
      (match tag with
       | Tag.replace => dumpLines '-' (slice a alo ahi) ++ dumpLines '+' (slice b blo bhi)
       | Tag.delete => dumpLines '-' (slice a alo ahi)
       | Tag.insert => dumpLines '+' (slice b blo bhi)
       | Tag.equal => dumpLines ' ' (slice a alo ahi))
        ++ scriptOfOpcodes a b rest

/-- The coded-line view of `ndiff(a, b)` consumed by `compute_compact_diff`:
`(code, word)` stands for the line `code + ' ' + word` (`token[0]` and
`token[2:]` in the source). -/
def ndiffModel (a b : List String) : List (Char × String) :=
  scriptOfOpcodes a b (getOpcodes a b)

/-! ## `compute_compact_diff` -/

/-- One compact-diff entry: `index` is the word position in the base (0-based),
`remove` the removed words, `add` the added words. -/
structure Region where
  index : Nat
  remove : List String
  add : List String
deriving Repr, DecidableEq

/-- One iteration of the scanning loop of `compute_compact_diff`, acting on the
state `(index, current, diff_ops)`.  A `' '` line flushes the open region and
advances `index`; a `'-'` line opens/extends the region and advances `index`;
a `'+'` line opens/extends the region without advancing `index`; every other
code (the `'?'` guide lines of `ndiff`) is ignored. -/
def ccdStep : Nat × Option Region × List Region → Char × String → Nat × Option Region × List Region
  | (index, current, out), (code, word) =>
      if code = ' ' then
        match current with
        | some c => (index + 1, none, out ++ [c])
        | none => (index + 1, none, out)
      else if code = '-' then
        match current with
        | none => (index + 1, some ⟨index, [word], []⟩, out)
        | some c => (index + 1, some ⟨c.index, c.remove ++ [word], c.add⟩, out)
      else if code = '+' then
        match current with
        | none => (index, some ⟨index, [], [word]⟩, out)
        | some c => (index, some ⟨c.index, c.remove, c.add ++ [word]⟩, out)
      else (index, current, out)

/-- Flush the pending region at the end of the scan. -/
def flushCurrent (st : Nat × Option Region × List Region) : List Region :=
  match st.2.1 with
  | some c => st.2.2 ++ [c]
  | none => st.2.2

/-- The scanning loop of `compute_compact_diff` over the coded lines. -/
def compactScan (lines : List (Char × String)) : List Region :=
  flushCurrent (lines.foldl ccdStep (0, none, []))

/-- `compute_compact_diff(base_text, other_text)`. -/
def computeCompactDiff (baseText otherText : String) : List Region :=
  compactScan (ndiffModel (pySplit baseText) (pySplit otherText))

/-- The per-verse loop of `save_chapter_json` for one version: each triple is
`(verse, base text, version text)`; verses whose diff is empty are omitted. -/
def versionDiffs (vs : List (String × String × String)) : List (String × List Region) :=
  vs.filterMap (fun t =>
    let ops := computeCompactDiff t.2.1 t.2.2
    if ops = [] then none else some (t.1, ops))

/-! ## Specification-side definitions

These definitions come from the specification's wording, not from the source;
they are what the claims compare the embedded code against. -/

/-- Classic edit distance with unit-cost insertions and deletions only (the
"minimal possible number of insertions plus deletions"). -/
def editDistance : List String → List String → Nat
  | [], ys => ys.length
  | x :: xs, [] => (x :: xs).length
  | x :: xs, y :: ys =>
      if x = y then editDistance xs ys
      else 1 + min (editDistance xs (y :: ys)) (editDistance (x :: xs) ys)

/-- Sum over all regions of the lengths of their remove and add lists. -/
def regionEditCount (regs : List Region) : Nat :=
  (regs.map (fun r => r.remove.length + r.add.length)).sum

/-- Replay change-regions (indices relative to the original base) against the
suffix of the base starting at position `pos`: at each region's index, delete
the tokens of its remove list and insert the tokens of its add list. -/
def applyRegionsFrom : Nat → List String → List Region → List String
  | _, rest, [] => rest
  | pos, rest, r :: rs =>
      rest.take (r.index - pos) ++ r.add
        ++ applyRegionsFrom (r.index + r.remove.length)
          (rest.drop (r.index - pos + r.remove.length)) rs

/-- Apply the change-regions (in ascending index order) to the base. -/
def applyRegions (base : List String) (regs : List Region) : List String :=
  applyRegionsFrom 0 base regs

/-- The words kept or removed by a coded-line script, i.e. its base-side
projection. -/
def projBase (lines : List (Char × String)) : List String :=
  lines.filterMap (fun l => if l.1 = ' ' ∨ l.1 = '-' then some l.2 else none)

/-- The words kept or inserted by a coded-line script, i.e. its other-side
projection. -/
def projOther (lines : List (Char × String)) : List String :=
  lines.filterMap (fun l => if l.1 = ' ' ∨ l.1 = '+' then some l.2 else none)

/-- Number of `'-'` plus `'+'` lines of a script. -/
def editCount (lines : List (Char × String)) : Nat :=
  (lines.filter (fun l => l.1 = '-' ∨ l.1 = '+')).length

/-- A chain of matching blocks between positions `(i, j)` and `(ei, ej)`: each
block starts at or after the current position, is non-empty, matches equal
content in `a` and `b`, and the chain continues from its end. -/
def RawChain (a b : List String) : Nat → Nat → List (Nat × Nat × Nat) → Nat → Nat → Prop
  | i, j, [], ei, ej => i ≤ ei ∧ j ≤ ej
  | i, j, (bi, bj, k) :: rest, ei, ej =>
      i ≤ bi ∧ j ≤ bj ∧ 1 ≤ k ∧
        (∀ t, t < k → a.get? (bi + t) = b.get? (bj + t)) ∧
        RawChain a b (bi + k) (bj + k) rest ei ej

/-- The regions determined by the gaps of a sentinel-terminated block chain:
the gap between the current position `(i, j)` and the next block is one region
anchored at `i`. -/
def regionsSpec (a b : List String) : Nat → Nat → List (Nat × Nat × Nat) → List Region
  | _, _, [] => []
  | i, j, (bi, bj, k) :: rest =>
      (if i < bi ∨ j < bj then [⟨i, slice a i bi, slice b j bj⟩] else [])
        ++ regionsSpec a b (bi + k) (bj + k) rest

/-- An interleaving of two lists that keeps the relative order of each. -/
inductive Merge {α : Type} : List α → List α → List α → Prop where
  | nil : Merge [] [] []
  | left {x xs ys zs} : Merge xs ys zs → Merge (x :: xs) ys (x :: zs)
  | right {y xs ys zs} : Merge xs ys zs → Merge xs (y :: ys) (y :: zs)

/-- Length of the diagonal run of non-filtered tokens of `a` ending at `i`
(used for the self-comparison analysis of the DP): the run restarts after a
token whose `b2j` entry was removed by the autojunk filter. -/
def streakF (a : List String) : Nat → Nat
  | 0 => if b2jF a (a.getD 0 "") = [] then 0 else 1
  | i + 1 => if b2jF a (a.getD (i + 1) "") = [] then 0 else streakF a i + 1

/-- Maximum of `streakF` over the rows strictly below `r`. -/
def maxStreakLt (a : List String) : Nat → Nat
  | 0 => 0
  | r + 1 => max (maxStreakLt a r) (streakF a r)

/-- Invariant of a finished `j2len` row `i` of the self-comparison DP: every
entry is bounded by the diagonal run lengths at its row and at its key, and
the diagonal key holds exactly the run length. -/
def DiagRow (a : List String) (i : Nat) (m : List (Nat × Nat)) : Prop :=
  (∀ p ∈ m, 1 ≤ p.2 ∧ p.2 ≤ streakF a i ∧ p.2 ≤ streakF a p.1) ∧
    lookupJ2 m i = streakF a i

/-- Invariant of the best candidate of the self-comparison DP before row `r`:
its size is the maximal diagonal run among earlier rows and it lies on the
diagonal. -/
def DiagBest (a : List String) (r bi bj bs : Nat) : Prop :=
  bs = maxStreakLt a r ∧ (bs = 0 → bi = 0 ∧ bj = 0) ∧
    (1 ≤ bs → bi = bj ∧ bi + bs ≤ r)

/-- `DiagBest` packaged over a result triple. -/
def DiagBestT (a : List String) (r : Nat) (m : Nat × Nat × Nat) : Prop :=
  DiagBest a r m.1 m.2.1 m.2.2

/-- Soundness of one `j2len` row entry `(j, v)` for row `row`: it witnesses a
common run of length `v` ending at `a[row]` / `b[j]`, inside the window. -/
def J2Entry (a b : List String) (alo blo bhi row j v : Nat) : Prop :=
  1 ≤ v ∧ blo ≤ j ∧ j < bhi ∧ v ≤ j + 1 - blo ∧ v + alo ≤ row + 1 ∧
    ∀ t, t < v → a.get? (row - t) = b.get? (j - t)

/-- Soundness of a best-match candidate `(bi, bj, bs)`: either still the
initial `(alo, blo, 0)`, or a real common run within the window (`bi + bs`
bounded by `hi`, which is `row + 1` during the DP and `ahi` after it). -/
def FlmBest (a b : List String) (alo blo hi bhi bi bj bs : Nat) : Prop :=
  (bs = 0 → bi = alo ∧ bj = blo) ∧
  (1 ≤ bs → alo ≤ bi ∧ blo ≤ bj ∧ bi + bs ≤ hi ∧ bj + bs ≤ bhi ∧
    ∀ t, t < bs → a.get? (bi + t) = b.get? (bj + t))

/-- `FlmBest` packaged over a result triple. -/
def FlmBestT (a b : List String) (alo blo hi bhi : Nat) (m : Nat × Nat × Nat) : Prop :=
  FlmBest a b alo blo hi bhi m.1 m.2.1 m.2.2

/-! # Theorems -/

/-! ## Unfolding equations of the extension loops -/

theorem extendLo_eq (a b : List String) (alo blo bi bj bs : Nat) :
    extendLo a b alo blo bi bj bs =
      if alo < bi ∧ blo < bj ∧ a.getD (bi - 1) "" = b.getD (bj - 1) "" then
        extendLo a b alo blo (bi - 1) (bj - 1) (bs + 1)
      else (bi, bj, bs) := by
  cases bi with
  | zero =>
      rw [if_neg (fun h => absurd h.1 (Nat.not_lt_zero alo))]
      rfl
  | succ k =>
      simp only [extendLo, Nat.add_sub_cancel]

theorem extendHi_eq (a b : List String) (ahi bhi bi bj bs : Nat) :
    extendHi a b ahi bhi bi bj bs =
      if bi + bs < ahi ∧ bj + bs < bhi ∧ a.getD (bi + bs) "" = b.getD (bj + bs) "" then
        extendHi a b ahi bhi bi bj (bs + 1)
      else (bi, bj, bs) := by
  unfold extendHi
  by_cases h : bi + bs < ahi ∧ bj + bs < bhi ∧ a.getD (bi + bs) "" = b.getD (bj + bs) ""
  · rw [if_pos h]
    rw [show ahi - (bi + bs) = (ahi - (bi + (bs + 1))) + 1 from by omega]
    simp only [extendHiF]
    rw [if_pos h]
  · rw [if_neg h]
    cases hc : ahi - (bi + bs) with
    | zero => rfl
    | succ k =>
        simp only [extendHiF]
        rw [if_neg h]

/-! ## Soundness of `find_longest_match` -/

theorem b2jAll_mem {b : List String} {w : String} {j : Nat} (h : j ∈ b2jAll b w) :
    j < b.length ∧ b.getD j "" = w := by
  simp only [b2jAll, List.mem_filter, List.mem_range, decide_eq_true_eq] at h
  exact h

theorem b2jF_subset {b : List String} {w : String} {j : Nat} (h : j ∈ b2jF b w) :
    j ∈ b2jAll b w := by
  unfold b2jF at h
  split at h
  · simp at h
  · exact h

theorem get?_eq_some_getD {α : Type} [Inhabited α] {l : List α} {i : Nat} (h : i < l.length)
    (d : α) : l.get? i = some (l.getD i d) := by
  rw [List.getD_eq_getD_get?]
  cases hg : l.get? i with
  | none => exact absurd (List.get?_eq_none.mp hg) (by omega)
  | some v => rfl

theorem b2jF_get {a b : List String} {i j : Nat} (hi : i < a.length)
    (h : j ∈ b2jF b (a.getD i "")) : a.get? i = b.get? j := by
  obtain ⟨hj, hw⟩ := b2jAll_mem (b2jF_subset h)
  rw [get?_eq_some_getD hi "", get?_eq_some_getD hj "", hw]

theorem FlmBest.mono {a b : List String} {alo blo hi hi' bhi bi bj bs : Nat}
    (h : FlmBest a b alo blo hi bhi bi bj bs) (hle : hi ≤ hi') :
    FlmBest a b alo blo hi' bhi bi bj bs := by
  obtain ⟨h0, h1⟩ := h
  refine ⟨h0, fun hk => ?_⟩
  obtain ⟨u1, u2, u3, u4, u5⟩ := h1 hk
  exact ⟨u1, u2, le_trans u3 hle, u4, u5⟩

/-- Soundness of `flmInner` (one DP row): starting from sound row entries and a
sound best candidate, every produced entry is sound for this row and the best
candidate stays sound with the end bound `row + 1`. -/
theorem flmInner_sound (a b : List String) (alo blo bhi row : Nat)
    (prev : List (Nat × Nat))
    (hprev : ∀ p ∈ prev, J2Entry a b alo blo bhi (row - 1) p.1 p.2)
    (hprev0 : prev ≠ [] → 1 ≤ row)
    (hrow : alo ≤ row) :
    ∀ (js : List Nat) (new : List (Nat × Nat)) (bi bj bs : Nat),
      (∀ j ∈ js, a.get? row = b.get? j) →
      (∀ p ∈ new, J2Entry a b alo blo bhi row p.1 p.2) →
      FlmBest a b alo blo (row + 1) bhi bi bj bs →
      (∀ p ∈ (flmInner prev row blo bhi js new (bi, bj, bs)).1,
          J2Entry a b alo blo bhi row p.1 p.2) ∧
        FlmBestT a b alo blo (row + 1) bhi (flmInner prev row blo bhi js new (bi, bj, bs)).2 := by
  intro js
  induction js with
  | nil =>
      intro new bi bj bs _ hnew hbest
      exact ⟨hnew, hbest⟩
  | cons j js ih =>
      intro new bi bj bs hjs hnew hbest
      simp only [flmInner]
      by_cases hlo : j < blo
      · rw [if_pos hlo]
        exact ih new bi bj bs (fun j' hj' => hjs j' (List.mem_cons_of_mem _ hj')) hnew hbest
      · rw [if_neg hlo]
        by_cases hhi : bhi ≤ j
        · rw [if_pos hhi]
          exact ⟨hnew, hbest⟩
        · rw [if_neg hhi]
          have hblo : blo ≤ j := Nat.le_of_not_lt hlo
          have hjbhi : j < bhi := Nat.lt_of_not_le hhi
          have hget : a.get? row = b.get? j := hjs j (List.mem_cons_self _ _)
          set k0 : Nat := if j = 0 then 0 else lookupJ2 prev (j - 1) with hk0
          have hentry : J2Entry a b alo blo bhi row j (k0 + 1) := by
            by_cases hj0 : j = 0
            · subst hj0
              have hz : k0 = 0 := by simp [hk0]
              rw [hz]
              refine ⟨le_rfl, hblo, hjbhi, by omega, by omega, ?_⟩
              intro t ht
              have : t = 0 := by omega
              subst this
              simpa using hget
            · have hk0v : k0 = lookupJ2 prev (j - 1) := by simp [hk0, hj0]
              rcases hfind : prev.find? (fun p => p.1 = j - 1) with _ | p
              · have hz : k0 = 0 := by rw [hk0v]; simp [lookupJ2, hfind]
                rw [hz]
                refine ⟨le_rfl, hblo, hjbhi, by omega, by omega, ?_⟩
                intro t ht
                have : t = 0 := by omega
                subst this
                simpa using hget
              · have hpmem : p ∈ prev := List.mem_of_find?_eq_some hfind
                have hpfst : p.1 = j - 1 := by
                  have := List.find?_some hfind
                  simpa using this
                obtain ⟨e1, e2, e3, e4, e5, e6⟩ := hprev p hpmem
                have hk0p : k0 = p.2 := by rw [hk0v]; simp [lookupJ2, hfind]
                rw [hk0p]
                have hj1 : 1 ≤ j := by omega
                have hrow1 : 1 ≤ row := hprev0 (by
                  intro h
                  rw [h] at hpmem
                  simp at hpmem)
                rw [hpfst] at e4
                refine ⟨by omega, hblo, hjbhi, by omega, by omega, ?_⟩
                intro t ht
                rcases Nat.eq_zero_or_pos t with rfl | hpos
                · simpa using hget
                · obtain ⟨s, rfl⟩ : ∃ s, t = s + 1 := ⟨t - 1, by omega⟩
                  have h6 := e6 s (by omega)
                  rw [show row - (s + 1) = row - 1 - s by omega,
                    show j - (s + 1) = j - 1 - s by omega]
                  rw [hpfst] at h6
                  exact h6
          have hnew' : ∀ p ∈ new ++ [(j, k0 + 1)], J2Entry a b alo blo bhi row p.1 p.2 := by
            intro p hp
            rcases List.mem_append.mp hp with hp | hp
            · exact hnew p hp
            · simp only [List.mem_singleton] at hp
              subst hp
              exact hentry
          obtain ⟨e1, e2, e3, e4, e5, e6⟩ := hentry
          by_cases hc : bs < k0 + 1
          · rw [if_pos hc]
            refine ih _ _ _ _ (fun j' hj' => hjs j' (List.mem_cons_of_mem _ hj')) hnew' ?_
            refine ⟨fun h => absurd h (by omega), fun _ => ?_⟩
            refine ⟨by omega, by omega, by omega, by omega, ?_⟩
            intro t ht
            have h6 := e6 (k0 - t) (by omega)
            rw [show row + 1 - (k0 + 1) + t = row - (k0 - t) by omega,
              show j + 1 - (k0 + 1) + t = j - (k0 - t) by omega]
            exact h6
          · rw [if_neg hc]
            exact ih _ _ _ _ (fun j' hj' => hjs j' (List.mem_cons_of_mem _ hj')) hnew' hbest

/-- Soundness of `flmRows` over the consecutive row range `r, …, r + n - 1`. -/
theorem flmRows_sound (a b : List String) (alo blo bhi ahi : Nat) (hahi : ahi ≤ a.length) :
    ∀ (n r : Nat), alo ≤ r → r + n ≤ ahi →
      ∀ (m : List (Nat × Nat)) (bi bj bs : Nat),
        (∀ p ∈ m, J2Entry a b alo blo bhi (r - 1) p.1 p.2) →
        (m ≠ [] → 1 ≤ r) →
        FlmBest a b alo blo r bhi bi bj bs →
        FlmBestT a b alo blo ahi bhi
          (flmRows a b blo bhi (List.range' r n) m (bi, bj, bs)).2 := by
  intro n
  induction n with
  | zero =>
      intro r hr hrn m bi bj bs _ _ hbest
      simp only [List.range', flmRows]
      exact hbest.mono (by omega)
  | succ n ih =>
      intro r hr hrn m bi bj bs hm hm0 hbest
      rw [show List.range' r (n + 1) = r :: List.range' (r + 1) n from rfl]
      simp only [flmRows]
      have hrlen : r < a.length := by omega
      have hsound :=
        flmInner_sound a b alo blo bhi r m hm hm0 hr (b2jF b (a.getD r ""))
          [] bi bj bs (fun j hj => b2jF_get hrlen hj) (by simp)
          (hbest.mono (by omega))
      refine ih (r + 1) (by omega) (by omega) _ _ _ _ ?_ (fun _ => by omega) ?_
      · intro p hp
        have := hsound.1 p hp
        simpa using this
      · exact hsound.2

/-- Soundness of the left extension loop. -/
theorem extendLo_sound (a b : List String) (alo blo ahi bhi : Nat)
    (hahi : ahi ≤ a.length) (hbhi : bhi ≤ b.length) (halo : alo ≤ ahi) (hblo : blo ≤ bhi) :
    ∀ (N bi bj bs : Nat), bi ≤ N →
      FlmBest a b alo blo ahi bhi bi bj bs →
      FlmBestT a b alo blo ahi bhi (extendLo a b alo blo bi bj bs) := by
  intro N
  induction N with
  | zero =>
      intro bi bj bs hN hbest
      rw [extendLo_eq]
      have : ¬(alo < bi ∧ blo < bj ∧ a.getD (bi - 1) "" = b.getD (bj - 1) "") := by
        intro h
        omega
      rw [if_neg this]
      exact hbest
  | succ N ih =>
      intro bi bj bs hN hbest
      rw [extendLo_eq]
      by_cases h : alo < bi ∧ blo < bj ∧ a.getD (bi - 1) "" = b.getD (bj - 1) ""
      · rw [if_pos h]
        obtain ⟨h1, h2, h3⟩ := h
        obtain ⟨hb0, hb1⟩ := hbest
        have hbs : 1 ≤ bs := by
          rcases Nat.eq_zero_or_pos bs with rfl | hpos
          · obtain ⟨rfl, rfl⟩ := hb0 rfl
            omega
          · exact hpos
        obtain ⟨u1, u2, u3, u4, u5⟩ := hb1 hbs
        refine ih (bi - 1) (bj - 1) (bs + 1) (by omega) ?_
        refine ⟨fun hz => absurd hz (by omega), fun _ => ?_⟩
        refine ⟨by omega, by omega, by omega, by omega, ?_⟩
        intro t ht
        rcases Nat.eq_zero_or_pos t with rfl | hpos
        · have hbi1 : bi - 1 < a.length := by omega
          have hbj1 : bj - 1 < b.length := by omega
          rw [Nat.add_zero, Nat.add_zero, get?_eq_some_getD hbi1 "", get?_eq_some_getD hbj1 "",
            h3]
        · obtain ⟨s, rfl⟩ : ∃ s, t = s + 1 := ⟨t - 1, by omega⟩
          have := u5 s (by omega)
          rw [show bi - 1 + (s + 1) = bi + s by omega, show bj - 1 + (s + 1) = bj + s by omega]
          exact this
      · rw [if_neg h]
        exact hbest

/-- Soundness of the right extension loop. -/
theorem extendHi_sound (a b : List String) (alo blo ahi bhi : Nat)
    (hahi : ahi ≤ a.length) (hbhi : bhi ≤ b.length) :
    ∀ (N bi bj bs : Nat), ahi - (bi + bs) ≤ N →
      FlmBest a b alo blo ahi bhi bi bj bs →
      FlmBestT a b alo blo ahi bhi (extendHi a b ahi bhi bi bj bs) := by
  intro N
  induction N with
  | zero =>
      intro bi bj bs hN hbest
      rw [extendHi_eq]
      have : ¬(bi + bs < ahi ∧ bj + bs < bhi ∧ a.getD (bi + bs) "" = b.getD (bj + bs) "") := by
        intro h
        omega
      rw [if_neg this]
      exact hbest
  | succ N ih =>
      intro bi bj bs hN hbest
      rw [extendHi_eq]
      by_cases h : bi + bs < ahi ∧ bj + bs < bhi ∧ a.getD (bi + bs) "" = b.getD (bj + bs) ""
      · rw [if_pos h]
        obtain ⟨h1, h2, h3⟩ := h
        obtain ⟨hb0, hb1⟩ := hbest
        have hcontentNew : a.get? (bi + bs) = b.get? (bj + bs) := by
          have hbia : bi + bs < a.length := by omega
          have hbjb : bj + bs < b.length := by omega
          rw [get?_eq_some_getD hbia "", get?_eq_some_getD hbjb "", h3]
        refine ih bi bj (bs + 1) (by omega) ?_
        refine ⟨fun hz => absurd hz (by omega), fun _ => ?_⟩
        rcases Nat.eq_zero_or_pos bs with rfl | hbs
        · obtain ⟨rfl, rfl⟩ := hb0 rfl
          refine ⟨le_rfl, le_rfl, by omega, by omega, ?_⟩
          intro t ht
          have : t = 0 := by omega
          subst this
          simpa using hcontentNew
        · obtain ⟨u1, u2, u3, u4, u5⟩ := hb1 hbs
          refine ⟨u1, u2, by omega, by omega, ?_⟩
          intro t ht
          rcases Nat.lt_or_ge t bs with hlt | hge
          · exact u5 t hlt
          · have : t = bs := by omega
            subst this
            exact hcontentNew
      · rw [if_neg h]
        exact hbest

/-- Soundness of `find_longest_match`: the returned `(i, j, k)` is the initial
`(alo, blo, 0)` when `k = 0`, and otherwise a common run of `a` and `b` lying
inside the window. -/
theorem findLongestMatch_sound (a b : List String) (alo ahi blo bhi : Nat)
    (hahi : ahi ≤ a.length) (hbhi : bhi ≤ b.length) (halo : alo ≤ ahi) (hblo : blo ≤ bhi) :
    FlmBestT a b alo blo ahi bhi (findLongestMatch a b alo ahi blo bhi) := by
  simp only [findLongestMatch]
  have h0 : FlmBest a b alo blo alo bhi alo blo 0 :=
    ⟨fun _ => ⟨rfl, rfl⟩, fun hk => absurd hk (by omega)⟩
  have hrows :=
    flmRows_sound a b alo blo bhi ahi hahi (ahi - alo) alo le_rfl (by omega) [] alo blo 0
      (by simp) (by simp) h0
  set r := flmRows a b blo bhi (List.range' alo (ahi - alo)) [] (alo, blo, 0) with hr
  have hlo :=
    extendLo_sound a b alo blo ahi bhi hahi hbhi halo hblo r.2.1 r.2.1 r.2.2.1 r.2.2.2
      le_rfl hrows
  set e := extendLo a b alo blo r.2.1 r.2.2.1 r.2.2.2 with he
  exact
    extendHi_sound a b alo blo ahi bhi hahi hbhi ahi e.1 e.2.1 e.2.2 (by omega) hlo

/-! ## From `find_longest_match` to the matching-block chain -/

theorem RawChain.le_ends {a b : List String} :
    ∀ {bs : List (Nat × Nat × Nat)} {i j ei ej : Nat},
      RawChain a b i j bs ei ej → i ≤ ei ∧ j ≤ ej := by
  intro bs
  induction bs with
  | nil => intro i j ei ej h; exact h
  | cons hd rest ih =>
      intro i j ei ej h
      obtain ⟨bi, bj, k⟩ := hd
      obtain ⟨h1, h2, h3, _, h5⟩ := h
      have := ih h5
      omega

theorem RawChain.weaken {a b : List String} {bs : List (Nat × Nat × Nat)}
    {i j i' j' ei ej : Nat} (h : RawChain a b i j bs ei ej) (hi : i' ≤ i) (hj : j' ≤ j) :
    RawChain a b i' j' bs ei ej := by
  cases bs with
  | nil =>
      obtain ⟨h1, h2⟩ := h
      exact ⟨by omega, by omega⟩
  | cons hd rest =>
      obtain ⟨bi, bj, k⟩ := hd
      obtain ⟨h1, h2, h3, h4, h5⟩ := h
      exact ⟨by omega, by omega, h3, h4, h5⟩

theorem RawChain.append {a b : List String} :
    ∀ {xs : List (Nat × Nat × Nat)} {ys : List (Nat × Nat × Nat)} {i j mi mj ei ej : Nat},
      RawChain a b i j xs mi mj → RawChain a b mi mj ys ei ej →
      RawChain a b i j (xs ++ ys) ei ej := by
  intro xs
  induction xs with
  | nil =>
      intro ys i j mi mj ei ej h1 h2
      obtain ⟨hi, hj⟩ := h1
      exact h2.weaken hi hj
  | cons hd rest ih =>
      intro ys i j mi mj ei ej h1 h2
      obtain ⟨bi, bj, k⟩ := hd
      obtain ⟨u1, u2, u3, u4, u5⟩ := h1
      exact ⟨u1, u2, u3, u4, ih u5 h2⟩

/-- The recursive block search produces a sound chain of non-empty, equal
content, left-to-right blocks inside the window, provided the fuel exceeds the
window size. -/
theorem matchBlocksF_sound (a b : List String) :
    ∀ (fuel alo ahi blo bhi : Nat), ahi ≤ a.length → bhi ≤ b.length →
      alo ≤ ahi → blo ≤ bhi → (ahi - alo) + (bhi - blo) < fuel →
      RawChain a b alo blo (matchBlocksF a b fuel alo ahi blo bhi) ahi bhi := by
  intro fuel
  induction fuel with
  | zero => intro alo ahi blo bhi _ _ _ _ hf; omega
  | succ fuel ih =>
      intro alo ahi blo bhi hahi hbhi halo hblo hf
      simp only [matchBlocksF]
      have hm := findLongestMatch_sound a b alo ahi blo bhi hahi hbhi halo hblo
      set m := findLongestMatch a b alo ahi blo bhi with hmdef
      obtain ⟨hm0, hm1⟩ := hm
      by_cases hk : m.2.2 = 0
      · rw [if_pos hk]
        exact ⟨halo, hblo⟩
      · rw [if_neg hk]
        obtain ⟨u1, u2, u3, u4, u5⟩ := hm1 (by omega)
        have hmid :
            RawChain a b m.1 m.2.1
              ((m.1, m.2.1, m.2.2) ::
                (if m.1 + m.2.2 < ahi ∧ m.2.1 + m.2.2 < bhi then
                  matchBlocksF a b fuel (m.1 + m.2.2) ahi (m.2.1 + m.2.2) bhi
                 else [])) ahi bhi := by
          refine ⟨le_rfl, le_rfl, by omega, u5, ?_⟩
          by_cases hrec : m.1 + m.2.2 < ahi ∧ m.2.1 + m.2.2 < bhi
          · rw [if_pos hrec]
            exact ih (m.1 + m.2.2) ahi (m.2.1 + m.2.2) bhi hahi hbhi (by omega) (by omega)
              (by omega)
          · rw [if_neg hrec]
            exact ⟨u3, u4⟩
        by_cases hleft : alo < m.1 ∧ blo < m.2.1
        · rw [if_pos hleft]
          have hlchain :
              RawChain a b alo blo (matchBlocksF a b fuel alo m.1 blo m.2.1) m.1 m.2.1 :=
            ih alo m.1 blo m.2.1 (by omega) (by omega) (by omega) (by omega) (by omega)
          exact hlchain.append hmid
        · rw [if_neg hleft]
          rw [List.nil_append]
          exact hmid.weaken u1 u2

/-- Merging adjacent blocks preserves the chain. -/
theorem mergeBlocks_sound {a b : List String} {ei ej : Nat} :
    ∀ (rest : List (Nat × Nat × Nat)) (i1 j1 k1 i j : Nat), i ≤ i1 → j ≤ j1 →
      (∀ t, t < k1 → a.get? (i1 + t) = b.get? (j1 + t)) →
      RawChain a b (i1 + k1) (j1 + k1) rest ei ej →
      RawChain a b i j (mergeBlocks i1 j1 k1 rest) ei ej := by
  intro rest
  induction rest with
  | nil =>
      intro i1 j1 k1 i j hi hj hcont hrest
      obtain ⟨he1, he2⟩ := hrest
      simp only [mergeBlocks]
      by_cases hk : k1 ≠ 0
      · rw [if_pos hk]
        exact ⟨hi, hj, by omega, hcont, by exact ⟨he1, he2⟩⟩
      · rw [if_neg hk]
        push_neg at hk
        exact ⟨by omega, by omega⟩
  | cons hd rest ih =>
      intro i1 j1 k1 i j hi hj hcont hrest
      obtain ⟨i2, j2, k2⟩ := hd
      obtain ⟨v1, v2, v3, v4, v5⟩ := hrest
      simp only [mergeBlocks]
      by_cases hadj : i1 + k1 = i2 ∧ j1 + k1 = j2
      · rw [if_pos hadj]
        obtain ⟨ha1, ha2⟩ := hadj
        refine ih i1 j1 (k1 + k2) i j hi hj ?_ ?_
        · intro t ht
          rcases Nat.lt_or_ge t k1 with hlt | hge
          · exact hcont t hlt
          · obtain ⟨s, rfl⟩ : ∃ s, t = k1 + s := ⟨t - k1, by omega⟩
            have := v4 s (by omega)
            rw [show i1 + (k1 + s) = i2 + s by omega, show j1 + (k1 + s) = j2 + s by omega]
            exact this
        · rw [show i1 + (k1 + k2) = i2 + k2 by omega, show j1 + (k1 + k2) = j2 + k2 by omega]
          exact v5
      · rw [if_neg hadj]
        by_cases hk : k1 ≠ 0
        · rw [if_pos hk]
          refine List.cons_append _ _ _ ▸ ⟨hi, hj, by omega, hcont, ?_⟩
          exact ih i2 j2 k2 (i1 + k1) (j1 + k1) v1 v2 v4 v5
        · rw [if_neg hk]
          push_neg at hk
          rw [List.nil_append]
          exact ih i2 j2 k2 i j (by omega) (by omega) v4 v5

/-- The merged matching blocks of the full sequences form a sound chain from
`(0, 0)` to the sequence ends. -/
theorem matchBlocks_chain (a b : List String) :
    RawChain a b 0 0 (mergeBlocks 0 0 0 (matchBlocks a b)) a.length b.length := by
  refine mergeBlocks_sound (matchBlocks a b) 0 0 0 0 0 le_rfl le_rfl (by omega) ?_
  have := matchBlocksF_sound a b (a.length + b.length + 1) 0 a.length 0 b.length
    le_rfl le_rfl (by omega) (by omega) (by omega)
  simpa [matchBlocks] using this

/-! ## The scanning loop of `compute_compact_diff`, over arbitrary scripts -/

theorem ccdStep_space_none (i : Nat) (out : List Region) (w : String) :
    ccdStep (i, none, out) (' ', w) = (i + 1, none, out) := by
  simp [ccdStep]

theorem ccdStep_space_some (i : Nat) (c : Region) (out : List Region) (w : String) :
    ccdStep (i, some c, out) (' ', w) = (i + 1, none, out ++ [c]) := by
  simp [ccdStep]

theorem ccdStep_minus_none (i : Nat) (out : List Region) (w : String) :
    ccdStep (i, none, out) ('-', w) = (i + 1, some ⟨i, [w], []⟩, out) := by
  simp [ccdStep]

theorem ccdStep_minus_some (i : Nat) (c : Region) (out : List Region) (w : String) :
    ccdStep (i, some c, out) ('-', w) = (i + 1, some ⟨c.index, c.remove ++ [w], c.add⟩, out) := by
  simp [ccdStep]

theorem ccdStep_plus_none (i : Nat) (out : List Region) (w : String) :
    ccdStep (i, none, out) ('+', w) = (i, some ⟨i, [], [w]⟩, out) := by
  simp [ccdStep]

theorem ccdStep_plus_some (i : Nat) (c : Region) (out : List Region) (w : String) :
    ccdStep (i, some c, out) ('+', w) = (i, some ⟨c.index, c.remove, c.add ++ [w]⟩, out) := by
  simp [ccdStep]

/-- The scan never emits a region with both lists empty: a region is only
opened on a `'-'` or `'+'` line, which immediately fills one list.  Holds for
every coded-line script, hence for either replace-region emission. -/
theorem compactScan_inv (P : Region → Prop)
    (hP : ∀ r, r.remove ≠ [] ∨ r.add ≠ [] → P r) :
    ∀ (lines : List (Char × String)) (i : Nat) (cur : Option Region) (out : List Region),
      (∀ r ∈ out, P r) → (∀ c, cur = some c → c.remove ≠ [] ∨ c.add ≠ []) →
      ∀ r ∈ flushCurrent (lines.foldl ccdStep (i, cur, out)), P r := by
  intro lines
  induction lines with
  | nil =>
      intro i cur out hout hcur r hr
      cases cur with
      | none => exact hout r hr
      | some c =>
          simp only [List.foldl_nil, flushCurrent, List.mem_append, List.mem_singleton] at hr
          rcases hr with hr | rfl
          · exact hout r hr
          · exact hP r (hcur r rfl)
  | cons l rest ih =>
      intro i cur out hout hcur r hr
      obtain ⟨code, w⟩ := l
      rw [List.foldl_cons] at hr
      by_cases hsp : code = ' '
      · subst hsp
        cases cur with
        | none =>
            rw [ccdStep_space_none] at hr
            exact ih _ _ _ hout (by simp) r hr
        | some c =>
            rw [ccdStep_space_some] at hr
            refine ih _ _ _ ?_ (by simp) r hr
            intro r' hr'
            rcases List.mem_append.mp hr' with h | h
            · exact hout r' h
            · simp only [List.mem_singleton] at h
              subst h
              exact hP r' (hcur r' rfl)
      · by_cases hmi : code = '-'
        · subst hmi
          cases cur with
          | none =>
              rw [ccdStep_minus_none] at hr
              refine ih _ _ _ hout ?_ r hr
              intro c hc
              cases hc
              simp
          | some c =>
              rw [ccdStep_minus_some] at hr
              refine ih _ _ _ hout ?_ r hr
              intro c' hc'
              cases hc'
              simp
        · by_cases hpl : code = '+'
          · subst hpl
            cases cur with
            | none =>
                rw [ccdStep_plus_none] at hr
                refine ih _ _ _ hout ?_ r hr
                intro c hc
                cases hc
                simp
            | some c =>
                rw [ccdStep_plus_some] at hr
                refine ih _ _ _ hout ?_ r hr
                intro c' hc'
                cases hc'
                rcases hcur c rfl with h | h
                · left; exact h
                · right; simp
          · have : ccdStep (i, cur, out) (code, w) = (i, cur, out) := by
              simp [ccdStep, hsp, hmi, hpl]
            rw [this] at hr
            exact ih _ _ _ hout hcur r hr

/-- An interleaving of empty lists is empty. -/
theorem Merge.eq_nil {α : Type} {xs ys : List α} (h : Merge xs ys []) : xs = [] ∧ ys = [] := by
  cases h
  exact ⟨rfl, rfl⟩

/-- Only empty lists interleave to the empty list. -/
theorem Merge.nil_of {α : Type} {m : List α} (h : Merge [] [] m) : m = [] := by
  cases h
  rfl

/-- Concatenating two lists is one of their interleavings. -/
theorem Merge.of_append {α : Type} (xs ys : List α) : Merge xs ys (xs ++ ys) := by
  induction xs with
  | nil =>
      induction ys with
      | nil => exact Merge.nil
      | cons y ys ihy => exact Merge.right ihy
  | cons x xs ihx => exact Merge.left ihx

/-- Scanning any interleaving of a block of `'-'` lines and a block of `'+'`
lines from an open-region state appends the removed and added words to the
open region and advances the index by the number of `'-'` lines. -/
theorem foldl_merge_some :
    ∀ {xs ys zs : List (Char × String)}, Merge xs ys zs →
      (∀ l ∈ xs, l.1 = '-') → (∀ l ∈ ys, l.1 = '+') →
      ∀ (i : Nat) (c : Region) (out : List Region),
        zs.foldl ccdStep (i, some c, out)
          = (i + xs.length, some ⟨c.index, c.remove ++ xs.map Prod.snd,
              c.add ++ ys.map Prod.snd⟩, out) := by
  intro xs ys zs hm
  induction hm with
  | nil =>
      intro _ _ i c out
      simp
  | @left x xs ys zs h ih =>
      intro hxs hys i c out
      obtain ⟨cx, wx⟩ := x
      have hcx : cx = '-' := hxs (cx, wx) (List.mem_cons_self _ _)
      subst hcx
      rw [List.foldl_cons, ccdStep_minus_some,
        ih (fun l hl => hxs l (List.mem_cons_of_mem _ hl)) hys]
      simp [List.append_assoc]
      omega
  | @right y xs ys zs h ih =>
      intro hxs hys i c out
      obtain ⟨cy, wy⟩ := y
      have hcy : cy = '+' := hys (cy, wy) (List.mem_cons_self _ _)
      subst hcy
      rw [List.foldl_cons, ccdStep_plus_some,
        ih hxs (fun l hl => hys l (List.mem_cons_of_mem _ hl))]
      simp [List.append_assoc]

/-- As `foldl_merge_some`, but starting with no open region and a non-empty
interleaving: the first line opens the region at the current index. -/
theorem foldl_merge_none :
    ∀ {xs ys zs : List (Char × String)}, Merge xs ys zs → zs ≠ [] →
      (∀ l ∈ xs, l.1 = '-') → (∀ l ∈ ys, l.1 = '+') →
      ∀ (i : Nat) (out : List Region),
        zs.foldl ccdStep (i, none, out)
          = (i + xs.length, some ⟨i, xs.map Prod.snd, ys.map Prod.snd⟩, out) := by
  intro xs ys zs hm
  cases hm with
  | nil => intro h; exact absurd rfl h
  | @left x xs ys zs h =>
      intro _ hxs hys i out
      obtain ⟨cx, wx⟩ := x
      have hcx : cx = '-' := hxs (cx, wx) (List.mem_cons_self _ _)
      subst hcx
      rw [List.foldl_cons, ccdStep_minus_none,
        foldl_merge_some h (fun l hl => hxs l (List.mem_cons_of_mem _ hl)) hys]
      simp
      omega
  | @right y xs ys zs h =>
      intro _ hxs hys i out
      obtain ⟨cy, wy⟩ := y
      have hcy : cy = '+' := hys (cy, wy) (List.mem_cons_self _ _)
      subst hcy
      rw [List.foldl_cons, ccdStep_plus_none,
        foldl_merge_some h hxs (fun l hl => hys l (List.mem_cons_of_mem _ hl))]
      simp

/-- The scan of `compute_compact_diff` cannot distinguish the interleavings of
the `'-'` and `'+'` lines of one replace region: every interleaving drives the
scan to the same state as the canonical `'-'`-then-`'+'` emission used by
`scriptOfOpcodes`.  This justifies modelling `Differ._fancy_replace`'s
ratio-driven interleaving by the canonical order. -/
theorem compactScan_merge_invariant (R A : List String) (m : List (Char × String))
    (hm : Merge (dumpLines '-' R) (dumpLines '+' A) m)
    (st : Nat × Option Region × List Region) :
    m.foldl ccdStep st = (dumpLines '-' R ++ dumpLines '+' A).foldl ccdStep st := by
  have hxs : ∀ l ∈ dumpLines '-' R, l.1 = '-' := by
    intro l hl
    simp only [dumpLines, List.mem_map] at hl
    obtain ⟨w, _, rfl⟩ := hl
    rfl
  have hys : ∀ l ∈ dumpLines '+' A, l.1 = '+' := by
    intro l hl
    simp only [dumpLines, List.mem_map] at hl
    obtain ⟨w, _, rfl⟩ := hl
    rfl
  have hcan : Merge (dumpLines '-' R) (dumpLines '+' A) (dumpLines '-' R ++ dumpLines '+' A) :=
    Merge.of_append _ _
  obtain ⟨i, cur, out⟩ := st
  cases cur with
  | some c =>
      rw [foldl_merge_some hm hxs hys, foldl_merge_some hcan hxs hys]
  | none =>
      by_cases hz : m = []
      · subst hz
        obtain ⟨h1, h2⟩ := Merge.eq_nil hm
        rw [h1, h2]
        rfl
      · have hcanne : dumpLines '-' R ++ dumpLines '+' A ≠ [] := by
          intro hcontra
          obtain ⟨h1, h2⟩ := List.append_eq_nil.mp hcontra
          rw [h1, h2] at hm
          exact hz (Merge.nil_of hm)
        rw [foldl_merge_none hm hz hxs hys, foldl_merge_none hcan hcanne hxs hys]

/-! ## Python slices -/

theorem slice_get?_lt {α : Type} (xs : List α) {lo hi t : Nat} (h : lo + t < hi) :
    (slice xs lo hi).get? t = xs.get? (lo + t) := by
  unfold slice
  rw [List.get?_drop]
  exact List.get?_take h

theorem slice_get?_ge {α : Type} (xs : List α) {lo hi t : Nat} (h : hi ≤ lo + t) :
    (slice xs lo hi).get? t = none := by
  unfold slice
  rw [List.get?_drop]
  apply List.get?_eq_none.mpr
  have : (xs.take hi).length ≤ hi := by
    rw [List.length_take]
    omega
  omega

theorem slice_length {α : Type} (xs : List α) {lo hi : Nat} (h : hi ≤ xs.length) :
    (slice xs lo hi).length = hi - lo := by
  unfold slice
  rw [List.length_drop, List.length_take]
  omega

theorem slice_full {α : Type} (xs : List α) : slice xs 0 xs.length = xs := by
  unfold slice
  rw [List.take_length, List.drop_zero]

theorem slice_self {α : Type} (xs : List α) (lo : Nat) : slice xs lo lo = [] := by
  apply List.eq_nil_of_length_eq_zero
  unfold slice
  rw [List.length_drop, List.length_take]
  omega

theorem slice_append {α : Type} (xs : List α) {lo mid hi : Nat} (h1 : lo ≤ mid) (h2 : mid ≤ hi)
    (h3 : mid ≤ xs.length) :
    slice xs lo hi = slice xs lo mid ++ slice xs mid hi := by
  apply List.ext_get?
  intro t
  by_cases hfst : t < mid - lo
  · rw [List.get?_append (by rw [slice_length xs h3]; omega)]
    by_cases hlt : lo + t < hi
    · rw [slice_get?_lt xs hlt, slice_get?_lt xs (by omega)]
    · omega
  · rw [List.get?_append_right (by rw [slice_length xs h3]; omega)]
    rw [slice_length xs h3]
    by_cases hlt : lo + t < hi
    · rw [slice_get?_lt xs hlt, slice_get?_lt xs (show mid + (t - (mid - lo)) < hi by omega)]
      congr 1
      omega
    · rw [slice_get?_ge xs (by omega), slice_get?_ge xs (by omega)]

theorem slice_drop {α : Type} (xs : List α) (lo hi d : Nat) :
    (slice xs lo hi).drop d = slice xs (lo + d) hi := by
  unfold slice
  rw [List.drop_drop]

/-- Two block slices with pointwise equal content are equal. -/
theorem slice_eq_slice {a b : List String} {bi bj k : Nat}
    (hcont : ∀ t, t < k → a.get? (bi + t) = b.get? (bj + t)) :
    slice a bi (bi + k) = slice b bj (bj + k) := by
  apply List.ext_get?
  intro t
  by_cases ht : t < k
  · rw [slice_get?_lt a (by omega), slice_get?_lt b (by omega)]
    exact hcont t ht
  · rw [slice_get?_ge a (by omega), slice_get?_ge b (by omega)]

/-! ## Projections and edit counts of scripts -/

theorem projBase_append (xs ys : List (Char × String)) :
    projBase (xs ++ ys) = projBase xs ++ projBase ys := by
  simp [projBase]

theorem projOther_append (xs ys : List (Char × String)) :
    projOther (xs ++ ys) = projOther xs ++ projOther ys := by
  simp [projOther]

theorem editCount_append (xs ys : List (Char × String)) :
    editCount (xs ++ ys) = editCount xs + editCount ys := by
  simp [editCount]

theorem projBase_minus (R : List String) : projBase (dumpLines '-' R) = R := by
  induction R with
  | nil => rfl
  | cons w R ih => simpa [dumpLines, projBase] using ih

theorem projBase_plus (A : List String) : projBase (dumpLines '+' A) = [] := by
  induction A with
  | nil => rfl
  | cons w A ih => simpa [dumpLines, projBase] using ih

theorem projBase_space (E : List String) : projBase (dumpLines ' ' E) = E := by
  induction E with
  | nil => rfl
  | cons w E ih => simpa [dumpLines, projBase] using ih

theorem projOther_minus (R : List String) : projOther (dumpLines '-' R) = [] := by
  induction R with
  | nil => rfl
  | cons w R ih => simpa [dumpLines, projOther] using ih

theorem projOther_plus (A : List String) : projOther (dumpLines '+' A) = A := by
  induction A with
  | nil => rfl
  | cons w A ih => simpa [dumpLines, projOther] using ih

theorem projOther_space (E : List String) : projOther (dumpLines ' ' E) = E := by
  induction E with
  | nil => rfl
  | cons w E ih => simpa [dumpLines, projOther] using ih

theorem editCount_minus (R : List String) : editCount (dumpLines '-' R) = R.length := by
  induction R with
  | nil => rfl
  | cons w R ih => simpa [dumpLines, editCount] using ih

theorem editCount_plus (A : List String) : editCount (dumpLines '+' A) = A.length := by
  induction A with
  | nil => rfl
  | cons w A ih => simpa [dumpLines, editCount] using ih

theorem editCount_space (E : List String) : editCount (dumpLines ' ' E) = 0 := by
  induction E with
  | nil => rfl
  | cons w E ih => simpa [dumpLines, editCount] using ih

/-! ## Scanning `' '` runs -/

theorem foldl_spaces_none (ws : List String) :
    ∀ (i : Nat) (out : List Region),
      List.foldl ccdStep (i, none, out) (dumpLines ' ' ws) = (i + ws.length, none, out) := by
  induction ws with
  | nil => intro i out; simp [dumpLines]
  | cons w ws ih =>
      intro i out
      simp only [dumpLines, List.map_cons, List.foldl_cons, ccdStep_space_none]
      have := ih (i + 1) out
      simp only [dumpLines] at this
      rw [this]
      congr 1
      simp
      omega

theorem foldl_spaces (ws : List String) (hws : ws ≠ []) (i : Nat) (cur : Option Region)
    (out : List Region) :
    List.foldl ccdStep (i, cur, out) (dumpLines ' ' ws)
      = (i + ws.length, none,
          out ++ (match cur with | some c => [c] | none => [])) := by
  cases ws with
  | nil => exact absurd rfl hws
  | cons w ws =>
      simp only [dumpLines, List.map_cons, List.foldl_cons]
      cases cur with
      | none =>
          rw [ccdStep_space_none]
          have := foldl_spaces_none ws (i + 1) out
          simp only [dumpLines] at this
          rw [this]
          simp
          omega
      | some c =>
          rw [ccdStep_space_some]
          have := foldl_spaces_none ws (i + 1) (out ++ [c])
          simp only [dumpLines] at this
          rw [this]
          simp
          omega

/-! ## The opcode walk: from the block chain to the regions of the scan -/

theorem dumpLines_fst (c : Char) (R : List String) : ∀ l ∈ dumpLines c R, l.1 = c := by
  intro l hl
  simp only [dumpLines, List.mem_map] at hl
  obtain ⟨w, _, rfl⟩ := hl
  rfl

theorem dumpLines_map_snd (c : Char) (R : List String) :
    (dumpLines c R).map Prod.snd = R := by
  simp [dumpLines]

theorem dumpLines_length (c : Char) (R : List String) : (dumpLines c R).length = R.length := by
  simp [dumpLines]

theorem scriptOfOpcodes_append (a b : List String)
    (xs ys : List (Tag × Nat × Nat × Nat × Nat)) :
    scriptOfOpcodes a b (xs ++ ys) = scriptOfOpcodes a b xs ++ scriptOfOpcodes a b ys := by
  induction xs with
  | nil => simp [scriptOfOpcodes]
  | cons hd rest ih =>
      obtain ⟨tag, alo, ahi, blo, bhi⟩ := hd
      simp only [List.cons_append, scriptOfOpcodes, List.append_eq, ih, List.append_assoc]

theorem merge_minus_nil (R : List String) :
    Merge (dumpLines '-' R) (dumpLines '+' []) (dumpLines '-' R) := by
  have h := Merge.of_append (dumpLines '-' R) (dumpLines '+' [])
  simpa [dumpLines] using h

theorem merge_nil_plus (A : List String) :
    Merge (dumpLines '-' []) (dumpLines '+' A) (dumpLines '+' A) := by
  have h := Merge.of_append (dumpLines '-' []) (dumpLines '+' A)
  simpa [dumpLines] using h

/-- Scanning the coded lines of the gap opcode (if any) between the current
position `(i, j)` and the next block start `(bi, bj)` opens exactly the region
of that gap. -/
theorem foldl_gapOps (a b : List String) (i j bi bj : Nat) (out : List Region)
    (hbi : bi ≤ a.length) (hbj : bj ≤ b.length) (hii : i ≤ bi) (hjj : j ≤ bj) :
    List.foldl ccdStep (i, none, out)
      (scriptOfOpcodes a b
        (if i < bi ∧ j < bj then [(Tag.replace, i, bi, j, bj)]
         else if i < bi then [(Tag.delete, i, bi, j, bj)]
         else if j < bj then [(Tag.insert, i, bi, j, bj)]
         else []))
      = if i < bi ∨ j < bj
        then (bi, some ⟨i, slice a i bi, slice b j bj⟩, out)
        else (i, none, out) := by
  have hRlen : (slice a i bi).length = bi - i := slice_length a hbi
  have hAlen : (slice b j bj).length = bj - j := slice_length b hbj
  by_cases h1 : i < bi ∧ j < bj
  · rw [if_pos h1, if_pos (Or.inl h1.1)]
    simp only [scriptOfOpcodes, List.append_nil]
    have hR : dumpLines '-' (slice a i bi) ≠ [] := by
      intro hc
      have hlen := congrArg List.length hc
      rw [dumpLines_length, hRlen] at hlen
      simp at hlen
      omega
    have hm := Merge.of_append (dumpLines '-' (slice a i bi)) (dumpLines '+' (slice b j bj))
    rw [foldl_merge_none hm (by intro hc; exact hR (List.append_eq_nil.mp hc).1)
      (dumpLines_fst '-' _) (dumpLines_fst '+' _)]
    rw [dumpLines_length, dumpLines_map_snd, dumpLines_map_snd, hRlen,
      show i + (bi - i) = bi from by omega]
  · rw [if_neg h1]
    by_cases h2 : i < bi
    · have hj : j = bj := by omega
      subst hj
      rw [if_pos h2, if_pos (Or.inl h2)]
      simp only [scriptOfOpcodes, List.append_nil]
      have hR : dumpLines '-' (slice a i bi) ≠ [] := by
        intro hc
        have hlen := congrArg List.length hc
        rw [dumpLines_length, hRlen] at hlen
        simp at hlen
        omega
      rw [foldl_merge_none (merge_minus_nil (slice a i bi)) hR
        (dumpLines_fst '-' _) (dumpLines_fst '+' _)]
      rw [dumpLines_length, dumpLines_map_snd, dumpLines_map_snd, hRlen, slice_self,
        show i + (bi - i) = bi from by omega]
    · rw [if_neg h2]
      have hi : i = bi := by omega
      subst hi
      by_cases h3 : j < bj
      · rw [if_pos h3, if_pos (Or.inr h3)]
        simp only [scriptOfOpcodes, List.append_nil]
        have hA : dumpLines '+' (slice b j bj) ≠ [] := by
          intro hc
          have hlen := congrArg List.length hc
          rw [dumpLines_length, hAlen] at hlen
          simp at hlen
          omega
        rw [foldl_merge_none (merge_nil_plus (slice b j bj)) hA
          (dumpLines_fst '-' _) (dumpLines_fst '+' _)]
        rw [dumpLines_map_snd, dumpLines_map_snd, slice_self]
        show ((i + (dumpLines '-' ([] : List String)).length : Nat), _, _) = _
        rw [show i + (dumpLines '-' ([] : List String)).length = i from by simp [dumpLines]]
      · rw [if_neg h3, if_neg (by omega : ¬(i < i ∨ j < bj))]
        simp [scriptOfOpcodes]

theorem opcodesLoop_sentinel (la lb i j : Nat) :
    opcodesLoop i j [(la, lb, 0)]
      = (if i < la ∧ j < lb then [(Tag.replace, i, la, j, lb)]
         else if i < la then [(Tag.delete, i, la, j, lb)]
         else if j < lb then [(Tag.insert, i, la, j, lb)]
         else []) := by
  simp [opcodesLoop]

theorem regionsSpec_sentinel (a b : List String) (la lb i j : Nat) :
    regionsSpec a b i j [(la, lb, 0)]
      = (if i < la ∨ j < lb then [⟨i, slice a i la, slice b j lb⟩] else []) := by
  simp [regionsSpec]

/-- The regions determined by the sentinel-terminated chain with the current
position prepended. -/
theorem scan_chain (a b : List String) :
    ∀ (bs : List (Nat × Nat × Nat)) (i j : Nat),
      RawChain a b i j bs a.length b.length →
      ∀ out : List Region,
        flushCurrent
          (List.foldl ccdStep (i, none, out)
            (scriptOfOpcodes a b
              (opcodesLoop i j (bs ++ [(a.length, b.length, 0)]))))
          = out ++ regionsSpec a b i j (bs ++ [(a.length, b.length, 0)]) := by
  intro bs
  induction bs with
  | nil =>
      intro i j hchain out
      obtain ⟨hi, hj⟩ := hchain
      rw [List.nil_append, opcodesLoop_sentinel, regionsSpec_sentinel]
      rw [foldl_gapOps a b i j a.length b.length out le_rfl le_rfl hi hj]
      by_cases hgap : i < a.length ∨ j < b.length
      · rw [if_pos hgap, if_pos hgap]
        simp [flushCurrent]
      · rw [if_neg hgap, if_neg hgap]
        simp [flushCurrent]
  | cons hd rest ih =>
      intro i j hchain out
      obtain ⟨bi, bj, k⟩ := hd
      obtain ⟨h1, h2, h3, h4, h5⟩ := hchain
      have hends := RawChain.le_ends h5
      have hbik : bi + k ≤ a.length := hends.1
      have hbjk : bj + k ≤ b.length := hends.2
      simp only [List.cons_append, opcodesLoop, regionsSpec]
      rw [if_pos (by omega : k ≠ 0)]
      rw [scriptOfOpcodes_append, scriptOfOpcodes_append, List.foldl_append, List.foldl_append]
      rw [foldl_gapOps a b i j bi bj out (by omega) (by omega) h1 h2]
      have hElen : (slice a bi (bi + k)).length = k := by
        rw [slice_length a hbik]
        omega
      have hE : slice a bi (bi + k) ≠ [] := by
        intro hc
        have := congrArg List.length hc
        rw [hElen] at this
        simp at this
        omega
      have hEfold :
          ∀ (cur : Option Region) (out' : List Region),
            List.foldl ccdStep (bi, cur, out')
              (scriptOfOpcodes a b [(Tag.equal, bi, bi + k, bj, bj + k)])
              = (bi + k, none, out' ++ (match cur with | some c => [c] | none => [])) := by
        intro cur out'
        simp only [scriptOfOpcodes, List.append_nil]
        rw [foldl_spaces _ hE bi cur out', hElen]
      simp only [List.append_eq]
      by_cases hgap : i < bi ∨ j < bj
      · rw [if_pos hgap, if_pos hgap, hEfold]
        rw [ih (bi + k) (bj + k) h5]
        simp [List.append_assoc]
      · rw [if_neg hgap, if_neg hgap]
        have hib : i = bi := by omega
        have hjb : j = bj := by omega
        subst hib
        subst hjb
        rw [hEfold]
        rw [ih (i + k) (j + k) h5]
        simp

/-- The output of `compute_compact_diff` on token lists is exactly the list of
gap regions of the matching-block chain. -/
theorem compactScan_ndiff (a b : List String) :
    compactScan (ndiffModel a b) = regionsSpec a b 0 0 (getMatchingBlocks a b) := by
  unfold compactScan ndiffModel getOpcodes getMatchingBlocks
  have h := scan_chain a b (mergeBlocks 0 0 0 (matchBlocks a b)) 0 0 (matchBlocks_chain a b) []
  simpa using h

theorem computeCompactDiff_eq (baseText otherText : String) :
    computeCompactDiff baseText otherText
      = regionsSpec (pySplit baseText) (pySplit otherText) 0 0
          (getMatchingBlocks (pySplit baseText) (pySplit otherText)) := by
  unfold computeCompactDiff
  exact compactScan_ndiff _ _

theorem regionEditCount_append (xs ys : List Region) :
    regionEditCount (xs ++ ys) = regionEditCount xs + regionEditCount ys := by
  simp [regionEditCount]

/-- Projections and edit count of the gap opcode script. -/
theorem gapOps_facts (a b : List String) (i j bi bj : Nat) (hii : i ≤ bi) (hjj : j ≤ bj) :
    projBase
        (scriptOfOpcodes a b
          (if i < bi ∧ j < bj then [(Tag.replace, i, bi, j, bj)]
           else if i < bi then [(Tag.delete, i, bi, j, bj)]
           else if j < bj then [(Tag.insert, i, bi, j, bj)]
           else []))
        = slice a i bi ∧
      projOther
        (scriptOfOpcodes a b
          (if i < bi ∧ j < bj then [(Tag.replace, i, bi, j, bj)]
           else if i < bi then [(Tag.delete, i, bi, j, bj)]
           else if j < bj then [(Tag.insert, i, bi, j, bj)]
           else []))
        = slice b j bj ∧
      editCount
        (scriptOfOpcodes a b
          (if i < bi ∧ j < bj then [(Tag.replace, i, bi, j, bj)]
           else if i < bi then [(Tag.delete, i, bi, j, bj)]
           else if j < bj then [(Tag.insert, i, bi, j, bj)]
           else []))
        = (slice a i bi).length + (slice b j bj).length := by
  by_cases h1 : i < bi ∧ j < bj
  · rw [if_pos h1]
    simp only [scriptOfOpcodes, List.append_nil]
    rw [projBase_append, projOther_append, editCount_append]
    rw [projBase_minus, projBase_plus, projOther_minus, projOther_plus,
      editCount_minus, editCount_plus]
    simp
  · rw [if_neg h1]
    by_cases h2 : i < bi
    · have hj : j = bj := by omega
      subst hj
      rw [if_pos h2]
      simp only [scriptOfOpcodes, List.append_nil]
      rw [projBase_minus, projOther_minus, editCount_minus, slice_self]
      simp
    · rw [if_neg h2]
      have hi : i = bi := by omega
      subst hi
      by_cases h3 : j < bj
      · rw [if_pos h3]
        simp only [scriptOfOpcodes, List.append_nil]
        rw [projBase_plus, projOther_plus, editCount_plus, slice_self]
        simp
      · rw [if_neg h3]
        have hj : j = bj := by omega
        subst hj
        rw [slice_self, slice_self]
        simp [scriptOfOpcodes, projBase, projOther, editCount]

/-- Along the chain: the base-side projection of the emitted script is the base
suffix, the other-side projection is the other suffix, and the number of
`'-'`/`'+'` lines equals the total size of the emitted regions. -/
theorem script_chain_facts (a b : List String) :
    ∀ (bs : List (Nat × Nat × Nat)) (i j : Nat),
      RawChain a b i j bs a.length b.length →
      projBase (scriptOfOpcodes a b (opcodesLoop i j (bs ++ [(a.length, b.length, 0)])))
          = slice a i a.length ∧
        projOther (scriptOfOpcodes a b (opcodesLoop i j (bs ++ [(a.length, b.length, 0)])))
          = slice b j b.length ∧
        editCount (scriptOfOpcodes a b (opcodesLoop i j (bs ++ [(a.length, b.length, 0)])))
          = regionEditCount (regionsSpec a b i j (bs ++ [(a.length, b.length, 0)])) := by
  intro bs
  induction bs with
  | nil =>
      intro i j hchain
      obtain ⟨hi, hj⟩ := hchain
      rw [List.nil_append, opcodesLoop_sentinel, regionsSpec_sentinel]
      obtain ⟨g1, g2, g3⟩ := gapOps_facts a b i j a.length b.length hi hj
      refine ⟨g1, g2, ?_⟩
      rw [g3]
      by_cases hgap : i < a.length ∨ j < b.length
      · rw [if_pos hgap]
        simp [regionEditCount]
      · rw [if_neg hgap]
        have hi' : i = a.length := by omega
        have hj' : j = b.length := by omega
        subst hi'
        subst hj'
        rw [slice_self, slice_self]
        simp [regionEditCount]
  | cons hd rest ih =>
      intro i j hchain
      obtain ⟨bi, bj, k⟩ := hd
      obtain ⟨h1, h2, h3, h4, h5⟩ := hchain
      have hends := RawChain.le_ends h5
      have hbik : bi + k ≤ a.length := hends.1
      have hbjk : bj + k ≤ b.length := hends.2
      simp only [List.cons_append, opcodesLoop, regionsSpec]
      rw [if_pos (by omega : k ≠ 0)]
      rw [scriptOfOpcodes_append, scriptOfOpcodes_append]
      simp only [List.append_eq]
      obtain ⟨g1, g2, g3⟩ := gapOps_facts a b i j bi bj h1 h2
      obtain ⟨r1, r2, r3⟩ := ih (bi + k) (bj + k) h5
      have hEq : scriptOfOpcodes a b [(Tag.equal, bi, bi + k, bj, bj + k)]
          = dumpLines ' ' (slice a bi (bi + k)) := by
        simp [scriptOfOpcodes]
      constructor
      · rw [projBase_append, projBase_append, g1, hEq, projBase_space, r1]
        rw [← slice_append a h1 (by omega) (by omega), ← slice_append a (by omega) (by omega)
          (by omega)]
      constructor
      · rw [projOther_append, projOther_append, g2, hEq, projOther_space, r2]
        rw [slice_eq_slice h4]
        rw [← slice_append b h2 (by omega) (by omega), ← slice_append b (by omega) (by omega)
          (by omega)]
      · rw [editCount_append, editCount_append, g3, hEq, editCount_space, r3,
          regionEditCount_append]
        by_cases hgap : i < bi ∨ j < bj
        · rw [if_pos hgap]
          simp [regionEditCount]
        · rw [if_neg hgap]
          have hib : i = bi := by omega
          have hjb : j = bj := by omega
          subst hib
          subst hjb
          rw [slice_self, slice_self]
          simp [regionEditCount]

/-! ## Replaying the regions against the base -/

/-- Replaying regions whose indices lie beyond a prefix leaves the prefix
untouched. -/
theorem applyRegionsFrom_append (X Y : List String) (pos : Nat) (regs : List Region)
    (hfirst : ∀ r ∈ regs.head?, pos + X.length ≤ r.index) :
    applyRegionsFrom pos (X ++ Y) regs = X ++ applyRegionsFrom (pos + X.length) Y regs := by
  cases regs with
  | nil => rfl
  | cons r rs =>
      have hr : pos + X.length ≤ r.index := hfirst r rfl
      simp only [applyRegionsFrom]
      rw [List.take_append_eq_append_take, List.take_all_of_le (by omega),
        List.drop_append_eq_append_drop, List.drop_eq_nil_of_le (by omega)]
      rw [show r.index - pos - X.length = r.index - (pos + X.length) by omega,
        show r.index - pos + r.remove.length - X.length
          = r.index - (pos + X.length) + r.remove.length by omega]
      simp [List.append_assoc]

/-- Every region emitted from position `(i, j)` on is anchored at or after
`i`. -/
theorem regionsSpec_index_ge (a b : List String) (ei ej : Nat) :
    ∀ (bs : List (Nat × Nat × Nat)) (i j : Nat), RawChain a b i j bs ei ej →
      ∀ r ∈ regionsSpec a b i j (bs ++ [(ei, ej, 0)]), i ≤ r.index := by
  intro bs
  induction bs with
  | nil =>
      intro i j hchain r hr
      rw [List.nil_append, regionsSpec_sentinel] at hr
      split at hr
      · simp only [List.mem_singleton] at hr
        subst hr
        exact le_rfl
      · simp at hr
  | cons hd rest ih =>
      intro i j hchain r hr
      obtain ⟨bi, bj, k⟩ := hd
      obtain ⟨h1, h2, h3, h4, h5⟩ := hchain
      simp only [List.cons_append, regionsSpec, List.mem_append] at hr
      rcases hr with hr | hr
      · split at hr
        · simp only [List.mem_singleton] at hr
          subst hr
          exact le_rfl
        · simp at hr
      · have := ih (bi + k) (bj + k) h5 r hr
        omega

/-- Replaying the regions of the chain against the base suffix produces the
other suffix. -/
theorem applyRegions_chain (a b : List String) :
    ∀ (bs : List (Nat × Nat × Nat)) (i j : Nat),
      RawChain a b i j bs a.length b.length →
      applyRegionsFrom i (slice a i a.length)
          (regionsSpec a b i j (bs ++ [(a.length, b.length, 0)]))
        = slice b j b.length := by
  intro bs
  induction bs with
  | nil =>
      intro i j hchain
      obtain ⟨hi, hj⟩ := hchain
      rw [List.nil_append, regionsSpec_sentinel]
      by_cases hgap : i < a.length ∨ j < b.length
      · rw [if_pos hgap]
        simp [applyRegionsFrom, Nat.sub_self, List.drop_length]
      · rw [if_neg hgap]
        have hi' : i = a.length := by omega
        have hj' : j = b.length := by omega
        subst hi'
        subst hj'
        rw [slice_self, slice_self]
        rfl
  | cons hd rest ih =>
      intro i j hchain
      obtain ⟨bi, bj, k⟩ := hd
      obtain ⟨h1, h2, h3, h4, h5⟩ := hchain
      have hends := RawChain.le_ends h5
      have hbik : bi + k ≤ a.length := hends.1
      have hbjk : bj + k ≤ b.length := hends.2
      have hXlen : (slice a bi (bi + k)).length = k := by
        rw [slice_length a hbik]
        omega
      have hsplitA : slice a bi a.length
          = slice a bi (bi + k) ++ slice a (bi + k) a.length :=
        slice_append a (by omega) (by omega) (by omega)
      have hfirst : ∀ r ∈ (regionsSpec a b (bi + k) (bj + k)
          (rest ++ [(a.length, b.length, 0)])).head?, bi + (slice a bi (bi + k)).length
            ≤ r.index := by
        intro r hr
        have hmem := List.mem_of_mem_head? hr
        have := regionsSpec_index_ge a b a.length b.length rest (bi + k) (bj + k) h5 r hmem
        omega
      have htail : applyRegionsFrom bi (slice a bi a.length)
          (regionsSpec a b (bi + k) (bj + k) (rest ++ [(a.length, b.length, 0)]))
          = slice b bj b.length := by
        rw [hsplitA, applyRegionsFrom_append _ _ _ _ hfirst, hXlen]
        rw [slice_eq_slice h4]
        rw [ih (bi + k) (bj + k) h5]
        rw [← slice_append b (by omega) (by omega) (by omega)]
      simp only [List.cons_append, regionsSpec]
      by_cases hgap : i < bi ∨ j < bj
      · rw [if_pos hgap]
        simp only [List.singleton_append, List.cons_append, applyRegionsFrom, Nat.sub_self,
          List.take_zero, List.nil_append, List.append_eq, Nat.zero_add]
        rw [slice_length a (by omega), slice_drop]
        rw [show i + (bi - i) = bi from by omega]
        rw [htail]
        rw [← slice_append b h2 (by omega) (by omega)]
      · rw [if_neg hgap]
        have hib : i = bi := by omega
        have hjb : j = bj := by omega
        subst hib
        subst hjb
        rw [List.nil_append]
        exact htail

/-- Round trip at the token-list level. -/
theorem applyRegions_compactScan (a b : List String) :
    applyRegions a (compactScan (ndiffModel a b)) = b := by
  rw [compactScan_ndiff]
  unfold applyRegions getMatchingBlocks
  have h := applyRegions_chain a b (mergeBlocks 0 0 0 (matchBlocks a b)) 0 0
    (matchBlocks_chain a b)
  rw [slice_full] at h
  rw [h, slice_full]

/-! ## Structure of the emitted regions -/

theorem slice_sublist {α : Type} (xs : List α) (lo hi : Nat) :
    List.Sublist (slice xs lo hi) xs :=
  ((xs.take hi).drop_sublist lo).trans (xs.take_sublist hi)

/-- Consecutive regions are separated by at least one kept token: the next
region starts at least one position after the tokens removed by the previous
one. -/
theorem regionsSpec_chain' (a b : List String) :
    ∀ (bs : List (Nat × Nat × Nat)) (i j : Nat),
      RawChain a b i j bs a.length b.length →
      List.Chain' (fun r1 r2 => r1.index + r1.remove.length + 1 ≤ r2.index)
        (regionsSpec a b i j (bs ++ [(a.length, b.length, 0)])) := by
  intro bs
  induction bs with
  | nil =>
      intro i j hchain
      rw [List.nil_append, regionsSpec_sentinel]
      split
      · exact List.chain'_singleton _
      · exact List.chain'_nil
  | cons hd rest ih =>
      intro i j hchain
      obtain ⟨bi, bj, k⟩ := hd
      obtain ⟨h1, h2, h3, h4, h5⟩ := hchain
      have hends := RawChain.le_ends h5
      simp only [List.cons_append, regionsSpec]
      refine List.Chain'.append ?_ (ih (bi + k) (bj + k) h5) ?_
      · split
        · exact List.chain'_singleton _
        · exact List.chain'_nil
      · intro x hx y hy
        have hymem := List.mem_of_mem_head? hy
        have hyge := regionsSpec_index_ge a b a.length b.length rest (bi + k) (bj + k) h5 y hymem
        split at hx
        · simp only [List.getLast?_singleton, Option.mem_def, Option.some.injEq] at hx
          subst hx
          have hrem : (slice a i bi).length = bi - i := slice_length a (by omega)
          simp only [hrem]
          omega
        · simp at hx

/-- Every region's removed and added tokens keep their original relative
order, and the removed span fits inside the base. -/
theorem regionsSpec_mem_facts (a b : List String) :
    ∀ (bs : List (Nat × Nat × Nat)) (i j : Nat),
      RawChain a b i j bs a.length b.length →
      ∀ r ∈ regionsSpec a b i j (bs ++ [(a.length, b.length, 0)]),
        List.Sublist r.remove a ∧ List.Sublist r.add b ∧
          r.index + r.remove.length ≤ a.length := by
  intro bs
  induction bs with
  | nil =>
      intro i j hchain r hr
      obtain ⟨hi, hj⟩ := hchain
      rw [List.nil_append, regionsSpec_sentinel] at hr
      split at hr
      · simp only [List.mem_singleton] at hr
        subst hr
        refine ⟨slice_sublist a _ _, slice_sublist b _ _, ?_⟩
        have : (slice a i a.length).length = a.length - i := slice_length a le_rfl
        simp only [this]
        omega
      · simp at hr
  | cons hd rest ih =>
      intro i j hchain r hr
      obtain ⟨bi, bj, k⟩ := hd
      obtain ⟨h1, h2, h3, h4, h5⟩ := hchain
      have hends := RawChain.le_ends h5
      simp only [List.cons_append, regionsSpec, List.mem_append] at hr
      rcases hr with hr | hr
      · split at hr
        · simp only [List.mem_singleton] at hr
          subst hr
          refine ⟨slice_sublist a _ _, slice_sublist b _ _, ?_⟩
          have : (slice a i bi).length = bi - i := slice_length a (by omega)
          simp only [this]
          omega
        · simp at hr
      · exact ih (bi + k) (bj + k) h5 r hr

/-! ## The empty base sequence -/

theorem findLongestMatch_nil_left (b : List String) (n : Nat) :
    findLongestMatch [] b 0 0 0 n = (0, 0, 0) := by
  simp only [findLongestMatch, Nat.sub_self, List.range']
  simp only [flmRows]
  rw [extendLo_eq]
  rw [if_neg (by omega : ¬((0 : Nat) < 0 ∧ (0 : Nat) < 0 ∧
    ([] : List String).getD (0 - 1) "" = b.getD (0 - 1) ""))]
  rw [extendHi_eq]
  rw [if_neg (by omega : ¬((0 : Nat) + 0 < 0 ∧ (0 : Nat) + 0 < n ∧
    ([] : List String).getD (0 + 0) "" = b.getD (0 + 0) ""))]

theorem getMatchingBlocks_nil_left (b : List String) :
    getMatchingBlocks [] b = [(0, b.length, 0)] := by
  unfold getMatchingBlocks matchBlocks
  simp only [List.length_nil, Nat.zero_add]
  rw [show b.length + 1 = b.length + 1 from rfl]
  simp only [matchBlocksF, findLongestMatch_nil_left]
  simp [mergeBlocks]

theorem ndiffModel_nil_left (b : List String) :
    ndiffModel [] b = dumpLines '+' b := by
  unfold ndiffModel getOpcodes
  rw [getMatchingBlocks_nil_left, opcodesLoop_sentinel]
  rcases Nat.eq_zero_or_pos b.length with hb | hb
  · rw [if_neg (by omega), if_neg (by omega), if_neg (by omega)]
    have : b = [] := List.length_eq_zero.mp hb
    subst this
    simp [scriptOfOpcodes, dumpLines]
  · rw [if_neg (by omega), if_neg (by omega), if_pos hb]
    simp only [scriptOfOpcodes, List.append_nil]
    rw [show slice b 0 b.length = b from slice_full b]

theorem computeCompactDiff_nil_left (other : String) (h : pySplit other ≠ []) :
    computeCompactDiff "" other = [⟨0, [], pySplit other⟩] := by
  rw [computeCompactDiff_eq]
  rw [show pySplit "" = [] from rfl]
  rw [getMatchingBlocks_nil_left, regionsSpec_sentinel]
  rw [if_pos (Or.inr (by
    have := List.length_pos.mpr h
    simpa using this))]
  rw [show slice ([] : List String) 0 0 = [] from rfl]
  rw [show slice (pySplit other) 0 (pySplit other).length = pySplit other from
    slice_full _]

/-! ## The diagonal analysis of the self-comparison DP -/

theorem streakF_succ_formula (a : List String) (j : Nat)
    (h : b2jF a (a.getD j "") ≠ []) :
    streakF a j = (if j = 0 then 0 else streakF a (j - 1)) + 1 := by
  cases j with
  | zero =>
      simp only [streakF]
      rw [if_neg h]
      simp
  | succ j =>
      simp only [streakF]
      rw [if_neg h, if_neg (by omega : ¬(j + 1 = 0))]
      simp

theorem streakF_eq_zero (a : List String) (j : Nat)
    (h : b2jF a (a.getD j "") = []) : streakF a j = 0 := by
  cases j with
  | zero =>
      simp only [streakF]
      rw [if_pos h]
  | succ j =>
      simp only [streakF]
      rw [if_pos h]

theorem streakF_le (a : List String) : ∀ j, streakF a j ≤ j + 1 := by
  intro j
  induction j with
  | zero =>
      by_cases h : b2jF a (a.getD 0 "") = []
      · simp only [streakF]
        rw [if_pos h]
        omega
      · simp only [streakF]
        rw [if_neg h]
  | succ j ih =>
      by_cases h : b2jF a (a.getD (j + 1) "") = []
      · simp only [streakF]
        rw [if_pos h]
        omega
      · simp only [streakF]
        rw [if_neg h]
        omega

theorem streakF_le_maxStreakLt (a : List String) {j r : Nat} (h : j < r) :
    streakF a j ≤ maxStreakLt a r := by
  induction r with
  | zero => omega
  | succ r ih =>
      rcases Nat.lt_or_ge j r with hlt | hge
      · have := ih hlt
        simp only [maxStreakLt]
        omega
      · have hj : j = r := by omega
        subst hj
        simp only [maxStreakLt]
        omega

theorem maxStreakLt_mono (a : List String) {r r' : Nat} (h : r ≤ r') :
    maxStreakLt a r ≤ maxStreakLt a r' := by
  induction r' with
  | zero =>
      have : r = 0 := by omega
      subst this
      exact le_rfl
  | succ r' ih =>
      rcases Nat.lt_or_ge r (r' + 1) with hlt | hge
      · have := ih (by omega)
        simp only [maxStreakLt]
        omega
      · have : r = r' + 1 := by omega
        subst this
        exact le_rfl

theorem lookupJ2_cases (m : List (Nat × Nat)) (q : Nat) :
    lookupJ2 m q = 0 ∨ ∃ p ∈ m, p.1 = q ∧ lookupJ2 m q = p.2 := by
  unfold lookupJ2
  cases hf : m.find? (fun p => p.1 = q) with
  | none => left; rfl
  | some p =>
      right
      refine ⟨p, List.mem_of_find?_eq_some hf, ?_, rfl⟩
      have := List.find?_some hf
      simpa using this

theorem lookupJ2_nil (q : Nat) : lookupJ2 [] q = 0 := rfl

theorem lookupJ2_append_miss (m1 m2 : List (Nat × Nat)) (q : Nat)
    (h : ∀ p ∈ m1, p.1 ≠ q) : lookupJ2 (m1 ++ m2) q = lookupJ2 m2 q := by
  unfold lookupJ2
  rw [List.find?_append]
  have hnone : m1.find? (fun p => p.1 = q) = none := by
    rw [List.find?_eq_none]
    intro p hp
    simpa using h p hp
  rw [hnone]
  rfl

theorem lookupJ2_cons_hit (m : List (Nat × Nat)) (q v : Nat) :
    lookupJ2 ((q, v) :: m) q = v := by
  unfold lookupJ2
  rw [List.find?_cons_of_pos _ (by simp)]

theorem b2jF_mem_facts {a : List String} {w : String} {j : Nat} (h : j ∈ b2jF a w) :
    j < a.length ∧ a.getD j "" = w :=
  b2jAll_mem (b2jF_subset h)

theorem b2jAll_split (a : List String) (i : Nat) (hi : i < a.length) :
    b2jAll a (a.getD i "")
      = (List.range i).filter (fun j => a.getD j "" = a.getD i "")
        ++ i :: (List.range' (i + 1) (a.length - i - 1)).filter
            (fun j => a.getD j "" = a.getD i "") := by
  unfold b2jAll
  have h1 := List.range'_append 0 i (a.length - i) 1
  simp only [Nat.one_mul, Nat.zero_add] at h1
  rw [show a.length - i + i = a.length from by omega] at h1
  have h2 : i :: List.range' (i + 1) (a.length - i - 1) = List.range' i (a.length - i) := by
    have h3 := (List.range'_succ i (a.length - i - 1) 1).symm
    rw [show a.length - i - 1 + 1 = a.length - i from by omega] at h3
    exact h3
  rw [List.range_eq_range', ← h1, List.filter_append, ← h2,
    List.filter_cons_of_pos (by simp), List.range_eq_range' i]

theorem flmInner_append (prev : List (Nat × Nat)) (i blo bhi : Nat) :
    ∀ (js1 js2 : List Nat) (new : List (Nat × Nat)) (best : Nat × Nat × Nat),
      (∀ j ∈ js1, j < bhi) →
      flmInner prev i blo bhi (js1 ++ js2) new best
        = flmInner prev i blo bhi js2 (flmInner prev i blo bhi js1 new best).1
            (flmInner prev i blo bhi js1 new best).2 := by
  intro js1
  induction js1 with
  | nil => intro js2 new best _; rfl
  | cons j js1 ih =>
      intro js2 new best hjs
      have hjbhi : j < bhi := hjs j (List.mem_cons_self _ _)
      simp only [List.cons_append, flmInner]
      by_cases hlo : j < blo
      · rw [if_pos hlo, if_pos hlo]
        exact ih js2 new best (fun j' hj' => hjs j' (List.mem_cons_of_mem _ hj'))
      · rw [if_neg hlo, if_neg hlo, if_neg (by omega : ¬bhi ≤ j),
          if_neg (by omega : ¬bhi ≤ j)]
        exact ih js2 _ _ (fun j' hj' => hjs j' (List.mem_cons_of_mem _ hj'))

/-- The value recorded for a position `j` holding the same word as row `i` is
bounded by the diagonal runs at `j` and at `i`. -/
theorem diag_value_bound (a : List String) (i j : Nat)
    (prev : List (Nat × Nat))
    (hprevRow : ∀ p ∈ prev, 1 ≤ p.2 ∧ p.2 ≤ streakF a (i - 1) ∧ p.2 ≤ streakF a p.1)
    (hprev0 : i = 0 → prev = [])
    (hj : a.getD j "" = a.getD i "") (hjne : b2jF a (a.getD j "") ≠ []) :
    (if j = 0 then 0 else lookupJ2 prev (j - 1)) + 1 ≤ streakF a j ∧
      (if j = 0 then 0 else lookupJ2 prev (j - 1)) + 1 ≤ streakF a i := by
  have hine : b2jF a (a.getD i "") ≠ [] := by rw [← hj]; exact hjne
  have hglobal : ∀ q, lookupJ2 prev q ≤ streakF a (i - 1) ∧ lookupJ2 prev q ≤ streakF a q := by
    intro q
    rcases lookupJ2_cases prev q with h0 | ⟨p, hp, hpq, hval⟩
    · rw [h0]
      exact ⟨Nat.zero_le _, Nat.zero_le _⟩
    · obtain ⟨e1, e2, e3⟩ := hprevRow p hp
      rw [hval]
      exact ⟨e2, hpq ▸ e3⟩
  constructor
  · rw [streakF_succ_formula a j hjne]
    by_cases hj0 : j = 0
    · rw [if_pos hj0, if_pos hj0]
    · rw [if_neg hj0, if_neg hj0]
      have := (hglobal (j - 1)).2
      omega
  · rw [streakF_succ_formula a i hine]
    by_cases hi0 : i = 0
    · have hpnil := hprev0 hi0
      subst hpnil
      rw [if_pos hi0]
      by_cases hj0 : j = 0
      · rw [if_pos hj0]
      · rw [if_neg hj0, lookupJ2_nil]
    · rw [if_neg hi0]
      by_cases hj0 : j = 0
      · rw [if_pos hj0]
        omega
      · rw [if_neg hj0]
        have := (hglobal (j - 1)).1
        omega

theorem extendLo_diag (a : List String) :
    ∀ (bi bs : Nat), extendLo a a 0 0 bi bi bs = (0, 0, bi + bs) := by
  intro bi
  induction bi with
  | zero =>
      intro bs
      rw [extendLo_eq,
        if_neg (fun h => absurd h.1 (Nat.lt_irrefl 0))]
      rw [Nat.zero_add]
  | succ bi ih =>
      intro bs
      rw [extendLo_eq,
        if_pos ⟨Nat.succ_pos bi, Nat.succ_pos bi, rfl⟩]
      simp only [Nat.add_sub_cancel]
      rw [ih (bs + 1)]
      rw [show bi + (bs + 1) = bi + 1 + bs from by omega]

theorem extendHi_diag (a : List String) (n : Nat) (hn : n = a.length) :
    ∀ (fuel s : Nat), n - s ≤ fuel → s ≤ n → extendHi a a n n 0 0 s = (0, 0, n) := by
  intro fuel
  induction fuel with
  | zero =>
      intro s hfuel hs
      have : s = n := by omega
      subst this
      rw [extendHi_eq, if_neg (fun h => absurd h.1 (by omega))]
  | succ fuel ih =>
      intro s hfuel hs
      by_cases hlt : s < n
      · rw [extendHi_eq, if_pos ⟨by omega, by omega, rfl⟩]
        exact ih (s + 1) (by omega) (by omega)
      · have : s = n := by omega
        subst this
        rw [extendHi_eq, if_neg (fun h => absurd h.1 (by omega))]

/-- Phase of the self-comparison row `i` over positions strictly below the
diagonal: the best candidate never changes (every candidate value is bounded by
an earlier diagonal run) and the recorded entries are bounded. -/
theorem flmInner_diag_low (a : List String) (n i : Nat) (hin : i < n)
    (prev : List (Nat × Nat))
    (hprevRow : ∀ p ∈ prev, 1 ≤ p.2 ∧ p.2 ≤ streakF a (i - 1) ∧ p.2 ≤ streakF a p.1)
    (hprev0 : i = 0 → prev = []) :
    ∀ (A : List Nat) (new : List (Nat × Nat)) (bi bj bs : Nat),
      (∀ j ∈ A, j < i ∧ a.getD j "" = a.getD i "" ∧ b2jF a (a.getD j "") ≠ []) →
      maxStreakLt a i ≤ bs →
      (flmInner prev i 0 n A new (bi, bj, bs)).2 = (bi, bj, bs) ∧
        ∃ added, (flmInner prev i 0 n A new (bi, bj, bs)).1 = new ++ added ∧
          ∀ p ∈ added, p.1 < i ∧ 1 ≤ p.2 ∧ p.2 ≤ streakF a i ∧ p.2 ≤ streakF a p.1 := by
  intro A
  induction A with
  | nil =>
      intro new bi bj bs _ _
      exact ⟨rfl, [], by simp [flmInner], by simp⟩
  | cons j A ih =>
      intro new bi bj bs hA hbs
      obtain ⟨hj1, hj2, hj3⟩ := hA j (List.mem_cons_self _ _)
      simp only [flmInner]
      rw [if_neg (by omega : ¬j < 0), if_neg (by omega : ¬n ≤ j)]
      have hv := diag_value_bound a i j prev hprevRow hprev0 hj2 hj3
      have hnoup : ¬bs < (if j = 0 then 0 else lookupJ2 prev (j - 1)) + 1 := by
        have hsj : streakF a j ≤ maxStreakLt a i := streakF_le_maxStreakLt a hj1
        omega
      rw [if_neg hnoup]
      obtain ⟨hb, added, hmap, hfacts⟩ :=
        ih (new ++ [(j, (if j = 0 then 0 else lookupJ2 prev (j - 1)) + 1)]) bi bj bs
          (fun j' hj' => hA j' (List.mem_cons_of_mem _ hj')) hbs
      refine ⟨hb, (j, (if j = 0 then 0 else lookupJ2 prev (j - 1)) + 1) :: added, ?_, ?_⟩
      · rw [hmap, List.append_assoc]
        simp
      · intro p hp
        rcases List.mem_cons.mp hp with rfl | hp
        · exact ⟨hj1, Nat.le_add_left 1 _, hv.2, hv.1⟩
        · exact hfacts p hp

/-- Phase of the self-comparison row `i` over positions strictly above the
diagonal: once the best candidate has reached the diagonal run of row `i`, it
never changes. -/
theorem flmInner_diag_high (a : List String) (n i : Nat) (hin : i < n)
    (prev : List (Nat × Nat))
    (hprevRow : ∀ p ∈ prev, 1 ≤ p.2 ∧ p.2 ≤ streakF a (i - 1) ∧ p.2 ≤ streakF a p.1)
    (hprev0 : i = 0 → prev = []) :
    ∀ (B : List Nat) (new : List (Nat × Nat)) (bi bj bs : Nat),
      (∀ j ∈ B, i < j ∧ j < n ∧ a.getD j "" = a.getD i "" ∧ b2jF a (a.getD j "") ≠ []) →
      streakF a i ≤ bs →
      (flmInner prev i 0 n B new (bi, bj, bs)).2 = (bi, bj, bs) ∧
        ∃ added, (flmInner prev i 0 n B new (bi, bj, bs)).1 = new ++ added ∧
          ∀ p ∈ added, i < p.1 ∧ 1 ≤ p.2 ∧ p.2 ≤ streakF a i ∧ p.2 ≤ streakF a p.1 := by
  intro B
  induction B with
  | nil =>
      intro new bi bj bs _ _
      exact ⟨rfl, [], by simp [flmInner], by simp⟩
  | cons j B ih =>
      intro new bi bj bs hB hbs
      obtain ⟨hj1, hj1n, hj2, hj3⟩ := hB j (List.mem_cons_self _ _)
      simp only [flmInner]
      rw [if_neg (by omega : ¬j < 0), if_neg (by omega : ¬n ≤ j)]
      have hv := diag_value_bound a i j prev hprevRow hprev0 hj2 hj3
      have hnoup : ¬bs < (if j = 0 then 0 else lookupJ2 prev (j - 1)) + 1 := by
        omega
      rw [if_neg hnoup]
      obtain ⟨hb, added, hmap, hfacts⟩ :=
        ih (new ++ [(j, (if j = 0 then 0 else lookupJ2 prev (j - 1)) + 1)]) bi bj bs
          (fun j' hj' => hB j' (List.mem_cons_of_mem _ hj')) hbs
      refine ⟨hb, (j, (if j = 0 then 0 else lookupJ2 prev (j - 1)) + 1) :: added, ?_, ?_⟩
      · rw [hmap, List.append_assoc]
        simp
      · intro p hp
        rcases List.mem_cons.mp hp with rfl | hp
        · exact ⟨hj1, Nat.le_add_left 1 _, hv.2, hv.1⟩
        · exact hfacts p hp

/-- One full row of the self-comparison DP preserves the diagonal invariants:
the produced row satisfies `DiagRow` and the best candidate becomes the best
diagonal run among rows `≤ i`. -/
theorem flmRow_diag (a : List String) (n i : Nat) (hn : n = a.length) (hin : i < n)
    (prev : List (Nat × Nat))
    (hprevRow : ∀ p ∈ prev, 1 ≤ p.2 ∧ p.2 ≤ streakF a (i - 1) ∧ p.2 ≤ streakF a p.1)
    (hprev0 : i = 0 → prev = [])
    (hprevDiag : 1 ≤ i → lookupJ2 prev (i - 1) = streakF a (i - 1))
    (bi bj bs : Nat) (hbest : DiagBest a i bi bj bs) :
    DiagRow a i (flmInner prev i 0 n (b2jF a (a.getD i "")) [] (bi, bj, bs)).1 ∧
      DiagBestT a (i + 1) (flmInner prev i 0 n (b2jF a (a.getD i "")) [] (bi, bj, bs)).2 := by
  obtain ⟨hbs, hz, hd⟩ := hbest
  by_cases hpop : b2jF a (a.getD i "") = []
  · rw [hpop]
    simp only [flmInner]
    have hstreak0 : streakF a i = 0 := streakF_eq_zero a i hpop
    constructor
    · exact ⟨by simp, by rw [lookupJ2_nil, hstreak0]⟩
    · show DiagBest a (i + 1) bi bj bs
      refine ⟨?_, hz, fun hbs1 => ⟨(hd hbs1).1, by have := (hd hbs1).2; omega⟩⟩
      simp only [maxStreakLt, hstreak0]
      omega
  · have hC : ¬(200 ≤ a.length ∧ a.length / 100 + 1 < (b2jAll a (a.getD i "")).length) := by
      intro hC
      apply hpop
      unfold b2jF
      rw [if_pos hC]
    have hb2j : b2jF a (a.getD i "") = b2jAll a (a.getD i "") := by
      unfold b2jF
      rw [if_neg hC]
    have hstreaki1 : 1 ≤ streakF a i := by
      rw [streakF_succ_formula a i hpop]
      exact Nat.le_add_left 1 _
    have hstreakile : streakF a i ≤ i + 1 := streakF_le a i
    set low := (List.range i).filter (fun j => a.getD j "" = a.getD i "") with hlow
    set high := (List.range' (i + 1) (a.length - i - 1)).filter
      (fun j => a.getD j "" = a.getD i "") with hhigh
    have hsplit : b2jF a (a.getD i "") = low ++ i :: high := by
      rw [hb2j, b2jAll_split a i (by omega)]
    have hlowfacts : ∀ j ∈ low, j < i ∧ a.getD j "" = a.getD i "" ∧
        b2jF a (a.getD j "") ≠ [] := by
      intro j hj
      rw [hlow] at hj
      simp only [List.mem_filter, List.mem_range, decide_eq_true_eq] at hj
      refine ⟨hj.1, hj.2, ?_⟩
      rw [hj.2]
      exact hpop
    have hhighfacts : ∀ j ∈ high, i < j ∧ j < n ∧ a.getD j "" = a.getD i "" ∧
        b2jF a (a.getD j "") ≠ [] := by
      intro j hj
      rw [hhigh] at hj
      simp only [List.mem_filter, List.mem_range'_1, decide_eq_true_eq] at hj
      refine ⟨by omega, by omega, hj.2, ?_⟩
      rw [hj.2]
      exact hpop
    rw [hsplit]
    rw [flmInner_append prev i 0 n low (i :: high) [] (bi, bj, bs)
      (fun j hj => by have := hlowfacts j hj; omega)]
    obtain ⟨hbA, addedA, hmapA, hfactsA⟩ :=
      flmInner_diag_low a n i hin prev hprevRow hprev0 low [] bi bj bs hlowfacts
        (le_of_eq hbs.symm)
    rw [hbA, hmapA, List.nil_append]
    simp only [flmInner]
    rw [if_neg (by omega : ¬i < 0), if_neg (by omega : ¬n ≤ i)]
    have hvi : (if i = 0 then 0 else lookupJ2 prev (i - 1)) + 1 = streakF a i := by
      rw [streakF_succ_formula a i hpop]
      by_cases hi0 : i = 0
      · rw [if_pos hi0, if_pos hi0]
      · rw [if_neg hi0, if_neg hi0, hprevDiag (by omega)]
    rw [hvi]
    have hAkeys : ∀ p ∈ addedA, p.1 ≠ i := by
      intro p hp
      have := (hfactsA p hp).1
      omega
    by_cases hup : bs < streakF a i
    · rw [if_pos hup]
      obtain ⟨hbB, addedB, hmapB, hfactsB⟩ :=
        flmInner_diag_high a n i hin prev hprevRow hprev0 high
          (addedA ++ [(i, streakF a i)]) (i + 1 - streakF a i) (i + 1 - streakF a i)
          (streakF a i) hhighfacts le_rfl
      rw [hbB, hmapB]
      constructor
      · constructor
        · intro p hp
          rcases List.mem_append.mp hp with hp | hp
          · rcases List.mem_append.mp hp with hp | hp
            · have := hfactsA p hp
              exact ⟨this.2.1, this.2.2.1, this.2.2.2⟩
            · simp only [List.mem_singleton] at hp
              subst hp
              exact ⟨hstreaki1, le_rfl, le_rfl⟩
          · have := hfactsB p hp
            exact ⟨this.2.1, this.2.2.1, this.2.2.2⟩
        · rw [List.append_assoc, List.singleton_append,
            lookupJ2_append_miss _ _ _ hAkeys, lookupJ2_cons_hit]
      · show DiagBest a (i + 1) (i + 1 - streakF a i) (i + 1 - streakF a i) (streakF a i)
        refine ⟨?_, fun h => absurd h (by omega), fun _ => ⟨rfl, by omega⟩⟩
        simp only [maxStreakLt]
        omega
    · rw [if_neg hup]
      obtain ⟨hbB, addedB, hmapB, hfactsB⟩ :=
        flmInner_diag_high a n i hin prev hprevRow hprev0 high
          (addedA ++ [(i, streakF a i)]) bi bj bs hhighfacts (by omega)
      rw [hbB, hmapB]
      constructor
      · constructor
        · intro p hp
          rcases List.mem_append.mp hp with hp | hp
          · rcases List.mem_append.mp hp with hp | hp
            · have := hfactsA p hp
              exact ⟨this.2.1, this.2.2.1, this.2.2.2⟩
            · simp only [List.mem_singleton] at hp
              subst hp
              exact ⟨hstreaki1, le_rfl, le_rfl⟩
          · have := hfactsB p hp
            exact ⟨this.2.1, this.2.2.1, this.2.2.2⟩
        · rw [List.append_assoc, List.singleton_append,
            lookupJ2_append_miss _ _ _ hAkeys, lookupJ2_cons_hit]
      · show DiagBest a (i + 1) bi bj bs
        refine ⟨?_, hz, fun hbs1 => ⟨(hd hbs1).1, by have := (hd hbs1).2; omega⟩⟩
        simp only [maxStreakLt]
        omega

/-- All rows of the self-comparison DP: the final best candidate is the best
diagonal run, on the diagonal. -/
theorem flmRows_diag (a : List String) (n : Nat) (hn : n = a.length) :
    ∀ (cnt r : Nat), r + cnt = n →
      ∀ (prev : List (Nat × Nat)) (bi bj bs : Nat),
        (∀ p ∈ prev, 1 ≤ p.2 ∧ p.2 ≤ streakF a (r - 1) ∧ p.2 ≤ streakF a p.1) →
        (r = 0 → prev = []) →
        (1 ≤ r → lookupJ2 prev (r - 1) = streakF a (r - 1)) →
        DiagBest a r bi bj bs →
        DiagBestT a n (flmRows a a 0 n (List.range' r cnt) prev (bi, bj, bs)).2 := by
  intro cnt
  induction cnt with
  | zero =>
      intro r hr prev bi bj bs _ _ _ hbest
      simp only [List.range', flmRows]
      have : r = n := by omega
      subst this
      exact hbest
  | succ cnt ih =>
      intro r hr prev bi bj bs hprevRow hprev0 hprevDiag hbest
      rw [List.range'_succ]
      simp only [flmRows]
      have hrow := flmRow_diag a n r hn (by omega) prev hprevRow hprev0 hprevDiag bi bj bs hbest
      obtain ⟨⟨hrowEnt, hrowDiag⟩, hbest'⟩ := hrow
      refine ih (r + 1) (by omega) _ _ _ _ ?_ (fun h => absurd h (by omega)) ?_ ?_
      · intro p hp
        have := hrowEnt p hp
        simpa using this
      · intro _
        simpa using hrowDiag
      · exact hbest'

/-- `find_longest_match` on two copies of the same sequence returns the whole
sequence as one block. -/
theorem findLongestMatch_self (a : List String) :
    findLongestMatch a a 0 a.length 0 a.length = (0, 0, a.length) := by
  simp only [findLongestMatch, Nat.sub_zero]
  have hrows :=
    flmRows_diag a a.length rfl a.length 0 (by omega) [] 0 0 0 (by simp) (fun _ => rfl)
      (fun h => absurd h (by omega)) ⟨rfl, fun _ => ⟨rfl, rfl⟩, fun h => absurd h (by omega)⟩
  set m := flmRows a a 0 a.length (List.range' 0 a.length) [] (0, 0, 0) with hm
  obtain ⟨hbs, hzz, hdd⟩ := hrows
  rcases Nat.eq_zero_or_pos m.2.2.2 with h0 | h1
  · obtain ⟨hbi, hbj⟩ := hzz h0
    rw [hbi, hbj, h0, extendLo_diag a 0 0]
    exact extendHi_diag a a.length rfl a.length 0 (by omega) (by omega)
  · obtain ⟨hdiag, hle⟩ := hdd h1
    rw [hdiag, extendLo_diag a m.2.2.1 m.2.2.2]
    refine extendHi_diag a a.length rfl a.length _ (by omega) ?_
    rw [← hdiag]
    exact hle

theorem getMatchingBlocks_self (a : List String) (h : a.length ≠ 0) :
    getMatchingBlocks a a = [(0, 0, a.length), (a.length, a.length, 0)] := by
  unfold getMatchingBlocks matchBlocks
  simp [matchBlocksF, findLongestMatch_self, mergeBlocks, h]

theorem compactScan_self_list (a : List String) : compactScan (ndiffModel a a) = [] := by
  rw [compactScan_ndiff]
  rcases Nat.eq_zero_or_pos a.length with h0 | hpos
  · have ha : a = [] := List.length_eq_zero.mp h0
    subst ha
    rw [getMatchingBlocks_nil_left, regionsSpec_sentinel, if_neg (by simp)]
  · rw [getMatchingBlocks_self a (by omega)]
    simp only [regionsSpec]
    rw [if_neg (by omega : ¬((0 : Nat) < 0 ∨ (0 : Nat) < 0))]
    rw [List.nil_append]
    simp only [Nat.zero_add]
    rw [if_neg (by omega : ¬(a.length < a.length ∨ a.length < a.length))]
    rfl

/-- Diffing two texts with identical token lists yields no regions. -/
theorem computeCompactDiff_self (b o : String) (h : pySplit b = pySplit o) :
    computeCompactDiff b o = [] := by
  unfold computeCompactDiff
  rw [h]
  exact compactScan_self_list _

/-! ## Edit distance: one-sided cons bounds and the script cost lower bound -/

theorem editDistance_nil_left (ys : List String) : editDistance [] ys = ys.length := by
  simp [editDistance]

theorem editDistance_nil_right (xs : List String) : editDistance xs [] = xs.length := by
  cases xs <;> simp [editDistance]

theorem editDistance_cons_cons (x y : String) (xs ys : List String) :
    editDistance (x :: xs) (y :: ys)
      = if x = y then editDistance xs ys
        else 1 + min (editDistance xs (y :: ys)) (editDistance (x :: xs) ys) := by
  simp [editDistance]

/-- Adding or removing one token on either side changes the edit distance by
at most one. -/
theorem editDistance_step :
    ∀ (n : Nat) (xs ys : List String), xs.length + ys.length ≤ n →
      (∀ x, editDistance (x :: xs) ys ≤ editDistance xs ys + 1) ∧
      (∀ y, editDistance xs (y :: ys) ≤ editDistance xs ys + 1) ∧
      (∀ x, editDistance xs ys ≤ editDistance (x :: xs) ys + 1) ∧
      (∀ y, editDistance xs ys ≤ editDistance xs (y :: ys) + 1) := by
  intro n
  induction n with
  | zero =>
      intro xs ys h
      have hxs : xs = [] := List.length_eq_zero.mp (by omega)
      have hys : ys = [] := List.length_eq_zero.mp (by omega)
      subst hxs; subst hys
      refine ⟨fun x => ?_, fun y => ?_, fun x => ?_, fun y => ?_⟩ <;>
        simp [editDistance_nil_left, editDistance_nil_right]
  | succ n ih =>
      intro xs ys h
      refine ⟨fun x => ?_, fun y => ?_, fun x => ?_, fun y => ?_⟩
      · cases ys with
        | nil => simp only [editDistance_nil_right, List.length_cons]; omega
        | cons y ys' =>
            rw [editDistance_cons_cons]
            by_cases hxy : x = y
            · rw [if_pos hxy]
              subst hxy
              exact (ih xs ys' (by simp at h ⊢; omega)).2.2.2 x
            · rw [if_neg hxy]
              have := Nat.min_le_left (editDistance xs (y :: ys')) (editDistance (x :: xs) ys')
              omega
      · cases xs with
        | nil => simp only [editDistance_nil_left, List.length_cons]; omega
        | cons x xs' =>
            rw [editDistance_cons_cons]
            by_cases hxy : x = y
            · rw [if_pos hxy]
              subst hxy
              exact (ih xs' ys (by simp at h ⊢; omega)).2.2.1 x
            · rw [if_neg hxy]
              have := Nat.min_le_right (editDistance xs' (y :: ys)) (editDistance (x :: xs') ys)
              omega
      · cases ys with
        | nil => simp only [editDistance_nil_right, List.length_cons]; omega
        | cons y ys' =>
            rw [editDistance_cons_cons]
            by_cases hxy : x = y
            · rw [if_pos hxy]
              subst hxy
              exact (ih xs ys' (by simp at h ⊢; omega)).2.1 x
            · rw [if_neg hxy]
              have h1 := (ih xs ys' (by simp at h ⊢; omega)).2.1 y
              have h2 := (ih xs ys' (by simp at h ⊢; omega)).2.2.1 x
              rcases Nat.le_total (editDistance xs (y :: ys')) (editDistance (x :: xs) ys') with
                hle | hle
              · rw [Nat.min_eq_left hle]; omega
              · rw [Nat.min_eq_right hle]; omega
      · cases xs with
        | nil => simp only [editDistance_nil_left, List.length_cons]; omega
        | cons x xs' =>
            rw [editDistance_cons_cons]
            by_cases hxy : x = y
            · rw [if_pos hxy]
              subst hxy
              exact (ih xs' ys (by simp at h ⊢; omega)).1 x
            · rw [if_neg hxy]
              have h1 := (ih xs' ys (by simp at h ⊢; omega)).1 x
              have h2 := (ih xs' ys (by simp at h ⊢; omega)).2.2.2 y
              rcases Nat.le_total (editDistance xs' (y :: ys)) (editDistance (x :: xs') ys) with
                hle | hle
              · rw [Nat.min_eq_left hle]; omega
              · rw [Nat.min_eq_right hle]; omega

theorem editDistance_cons_left_le (x : String) (xs ys : List String) :
    editDistance (x :: xs) ys ≤ editDistance xs ys + 1 :=
  (editDistance_step (xs.length + ys.length) xs ys le_rfl).1 x

theorem editDistance_cons_right_le (y : String) (xs ys : List String) :
    editDistance xs (y :: ys) ≤ editDistance xs ys + 1 :=
  (editDistance_step (xs.length + ys.length) xs ys le_rfl).2.1 y

/-- Any coded-line script whose base-side projection is `a` and other-side
projection is `b` contains at least `editDistance a b` many `'-'`/`'+'` lines:
an edit script can never beat the edit distance. -/
theorem editDistance_proj_le (lines : List (Char × String)) :
    editDistance (projBase lines) (projOther lines) ≤ editCount lines := by
  induction lines with
  | nil => simp [projBase, projOther, editCount, editDistance_nil_left]
  | cons l rest ih =>
      obtain ⟨c, w⟩ := l
      by_cases hsp : c = ' '
      · subst hsp
        have hb : projBase ((' ', w) :: rest) = w :: projBase rest := by simp [projBase]
        have ho : projOther ((' ', w) :: rest) = w :: projOther rest := by simp [projOther]
        have hc : editCount ((' ', w) :: rest) = editCount rest := by simp [editCount]
        rw [hb, ho, hc, editDistance_cons_cons, if_pos rfl]
        exact ih
      · by_cases hmi : c = '-'
        · subst hmi
          have hb : projBase (('-', w) :: rest) = w :: projBase rest := by simp [projBase]
          have ho : projOther (('-', w) :: rest) = projOther rest := by simp [projOther]
          have hc : editCount (('-', w) :: rest) = editCount rest + 1 := by
            simp [editCount, List.length_cons]
          rw [hb, ho, hc]
          exact le_trans (editDistance_cons_left_le w _ _) (by omega)
        · by_cases hpl : c = '+'
          · subst hpl
            have hb : projBase (('+', w) :: rest) = projBase rest := by simp [projBase]
            have ho : projOther (('+', w) :: rest) = w :: projOther rest := by simp [projOther]
            have hc : editCount (('+', w) :: rest) = editCount rest + 1 := by
              simp [editCount, List.length_cons]
            rw [hb, ho, hc]
            exact le_trans (editDistance_cons_right_le w _ _) (by omega)
          · have hb : projBase ((c, w) :: rest) = projBase rest := by
              simp [projBase, hsp, hmi]
            have ho : projOther ((c, w) :: rest) = projOther rest := by
              simp [projOther, hsp, hpl]
            have hc : editCount ((c, w) :: rest) = editCount rest := by
              simp [editCount, hmi, hpl]
            rw [hb, ho, hc]
            exact ih


/-! ## `join_words` and punctuation -/

theorem rstripL_append_space (xs : List Char) : rstripL (xs ++ [' ']) = rstripL xs := by
  simp [rstripL, List.dropWhile_cons, show isPySpace ' ' = true from rfl]

theorem rstripL_append_nonspace (xs : List Char) (c : Char) (hc : isPySpace c = false) :
    rstripL (xs ++ [c]) = xs ++ [c] := by
  simp [rstripL, List.dropWhile_cons, hc]

theorem lstripL_append_nonspace (xs : List Char) (c : Char) (hc : isPySpace c = false) :
    lstripL (xs ++ [c]) = lstripL xs ++ [c] := by
  by_cases h : List.dropWhile isPySpace xs = []
  · simp [lstripL, List.dropWhile_append, h, List.dropWhile_cons, hc]
  · simp [lstripL, List.dropWhile_append, h, hc]

theorem rstripL_cons (a : Char) (cs : List Char) :
    rstripL (a :: cs) =
      if rstripL cs = [] then (if isPySpace a then [] else [a]) else a :: rstripL cs := by
  by_cases h : List.dropWhile isPySpace cs.reverse = []
  · have hr : rstripL cs = [] := by simp [rstripL, h]
    rw [if_pos hr]
    by_cases ha : isPySpace a
    · rw [if_pos ha]
      simp [rstripL, List.dropWhile_append, h, List.dropWhile_cons, ha]
    · rw [if_neg ha]
      simp [rstripL, List.dropWhile_append, h, List.dropWhile_cons, ha]
  · have hr : rstripL cs ≠ [] := by simp [rstripL, h]
    rw [if_neg hr]
    simp [rstripL, List.dropWhile_append, h]

/-- Stripping from the left then the right agrees with stripping from the
right then the left. -/
theorem strip_comm (cs : List Char) : stripL cs = lstripL (rstripL cs) := by
  induction cs with
  | nil => rfl
  | cons a cs ih =>
      by_cases ha : isPySpace a
      · have hl : lstripL (a :: cs) = lstripL cs := by
          simp [lstripL, List.dropWhile_cons, ha]
        have hlhs : stripL (a :: cs) = stripL cs := by
          unfold stripL
          rw [hl]
        rw [hlhs, ih, rstripL_cons]
        by_cases hr : rstripL cs = []
        · rw [if_pos hr, if_pos ha, hr]
        · rw [if_neg hr]
          simp [lstripL, List.dropWhile_cons, ha]
      · have hl : lstripL (a :: cs) = a :: cs := by
          simp [lstripL, List.dropWhile_cons, ha]
        have hlhs : stripL (a :: cs) = rstripL (a :: cs) := by
          unfold stripL
          rw [hl]
        rw [hlhs, rstripL_cons]
        by_cases hr : rstripL cs = []
        · rw [if_pos hr, if_neg ha]
          simp [lstripL, List.dropWhile_cons, ha]
        · rw [if_neg hr]
          simp [lstripL, List.dropWhile_cons, ha]

/-- Appending a single non-space character and a space to right-stripped text
and stripping again appends exactly that character to the stripped text. -/
theorem stripL_punct (cs : List Char) (c : Char) (hc : isPySpace c = false) :
    stripL (rstripL cs ++ [c, ' ']) = stripL cs ++ [c] := by
  have h1 : rstripL (rstripL cs ++ [c, ' ']) = rstripL cs ++ [c] := by
    rw [show rstripL cs ++ [c, ' '] = (rstripL cs ++ [c]) ++ [' '] from by simp]
    rw [rstripL_append_space, rstripL_append_nonspace _ c hc]
  rw [strip_comm (rstripL cs ++ [c, ' ']), h1, lstripL_append_nonspace _ c hc, ← strip_comm]

/-- `join_words` glues a punctuation token directly onto the text built so
far, with no intervening space; with no preceding text the mark stands alone. -/
theorem joinWords_append_punct (ws : List String) (p : String) (hp : p ∈ PUNCT) :
    joinWords (ws ++ [p]) = joinWords ws ++ p := by
  have hp2 := hp
  obtain ⟨c, hc, hcs, hne⟩ :
      ∃ c : Char, p.data = [c] ∧ isPySpace c = false ∧ p ≠ "" := by
    simp only [PUNCT, List.mem_cons, List.not_mem_nil, or_false] at hp
    rcases hp with rfl | rfl | rfl | rfl | rfl | rfl | rfl
    · exact ⟨',', by decide, by decide, by decide⟩
    · exact ⟨'.', by decide, by decide, by decide⟩
    · exact ⟨';', by decide, by decide, by decide⟩
    · exact ⟨':', by decide, by decide, by decide⟩
    · exact ⟨'?', by decide, by decide, by decide⟩
    · exact ⟨'!', by decide, by decide, by decide⟩
    · exact ⟨'—', by decide, by decide, by decide⟩
  unfold joinWords
  rw [List.foldl_append]
  simp only [List.foldl_cons, List.foldl_nil]
  unfold joinStep
  rw [if_neg hne, if_pos hp2]
  show String.mk (stripL ((pyRstrip (List.foldl joinStep "" ws) ++ p ++ " ").data))
      = String.mk (stripL (List.foldl joinStep "" ws).data) ++ p
  rw [String.data_append, String.data_append, hc]
  rw [show (" " : String).data = [' '] from rfl]
  rw [show (pyRstrip (List.foldl joinStep "" ws)).data
      = rstripL (List.foldl joinStep "" ws).data from rfl]
  rw [show rstripL (List.foldl joinStep "" ws).data ++ [c] ++ [' ']
      = rstripL (List.foldl joinStep "" ws).data ++ [c, ' '] from by simp]
  rw [stripL_punct _ c hcs]
  rw [show p = String.mk [c] from by rw [show p = String.mk p.data from rfl, hc]]
  rfl

/-! ## Assembled facts used by the claims -/

/-- The diff in terms of the gap regions of the merged block chain. -/
theorem computeCompactDiff_regionsSpec (b o : String) :
    computeCompactDiff b o
      = regionsSpec (pySplit b) (pySplit o) 0 0
          (mergeBlocks 0 0 0 (matchBlocks (pySplit b) (pySplit o))
            ++ [((pySplit b).length, (pySplit o).length, 0)]) := by
  rw [computeCompactDiff_eq]
  rfl

/-- An empty base word list against a non-empty one yields the single
whole-insertion region. -/
theorem compactScan_nil_left (bs : List String) (h : bs ≠ []) :
    compactScan (ndiffModel [] bs) = [⟨0, [], bs⟩] := by
  rw [compactScan_ndiff, getMatchingBlocks_nil_left, regionsSpec_sentinel]
  rw [if_pos (Or.inr (by simpa using List.length_pos.mpr h))]
  rw [show slice ([] : List String) 0 0 = [] from rfl]
  rw [show slice bs 0 bs.length = bs from slice_full _]

/-! # Claims -/

/-- C1: the total Remove+Insert count of the compact diff equals the edit
count of the underlying `ndiff` script and is bounded below by the classic
edit distance of the two token sequences; equality with the edit distance
does not hold in general (see the counterexample). -/
theorem claim_C1_cost : ∀ (b o : String),
    regionEditCount (computeCompactDiff b o)
        = editCount (ndiffModel (pySplit b) (pySplit o)) ∧
    editDistance (pySplit b) (pySplit o) ≤ regionEditCount (computeCompactDiff b o) := by
  intro b o
  have hchain := matchBlocks_chain (pySplit b) (pySplit o)
  obtain ⟨h1, h2, h3⟩ := script_chain_facts (pySplit b) (pySplit o)
    (mergeBlocks 0 0 0 (matchBlocks (pySplit b) (pySplit o))) 0 0 hchain
  have hscript : ndiffModel (pySplit b) (pySplit o)
      = scriptOfOpcodes (pySplit b) (pySplit o)
          (opcodesLoop 0 0
            (mergeBlocks 0 0 0 (matchBlocks (pySplit b) (pySplit o))
              ++ [((pySplit b).length, (pySplit o).length, 0)])) := rfl
  constructor
  · rw [computeCompactDiff_regionsSpec, hscript, h3]
  · rw [computeCompactDiff_regionsSpec, ← h3]
    have hle := editDistance_proj_le (scriptOfOpcodes (pySplit b) (pySplit o)
      (opcodesLoop 0 0 (mergeBlocks 0 0 0 (matchBlocks (pySplit b) (pySplit o))
        ++ [((pySplit b).length, (pySplit o).length, 0)])))
    rw [h1, h2, slice_full, slice_full] at hle
    exact hle

/-- C1 counterexample: on base `"a b c a b"` and other `"c a b a b"` the diff
spends 4 edits while the classic edit distance of the word lists is 2, so the
claimed equality with the minimal edit count fails. -/
theorem claim_C1_counterexample :
    ¬ (regionEditCount (computeCompactDiff "a b c a b" "c a b a b")
        = editDistance (pySplit "a b c a b") (pySplit "c a b a b")) := by
  have h1 : regionEditCount (computeCompactDiff "a b c a b" "c a b a b") = 4 := by decide
  have h2 : editDistance (pySplit "a b c a b") (pySplit "c a b a b") = 2 := by
    rw [show pySplit "a b c a b" = ["a", "b", "c", "a", "b"] from rfl,
        show pySplit "c a b a b" = ["c", "a", "b", "a", "b"] from rfl]
    simp [editDistance_cons_cons, editDistance_nil_left, editDistance_nil_right]
  rw [h1, h2]
  omega

/-- C2: replaying the change-regions of `compute_compact_diff` against the
base word list (deleting each region's removed words at its index and
inserting its added words) reproduces the other word list exactly. -/
theorem claim_C2_round_trip : ∀ (b o : String),
    applyRegions (pySplit b) (computeCompactDiff b o) = pySplit o := by
  intro b o
  exact applyRegions_compactScan (pySplit b) (pySplit o)

/-- C3: the scanning loop advances the index on a `' '` (keep) and on a `'-'`
(remove) line but not on a `'+'` (insert) line, a region opened on a non-keep
line carries the index current at that moment, and the concrete scenario
inserting `"small"` into `"the dog ran"` yields the single region
`{index 1, remove [], add ["small"]}`. -/
theorem claim_C3_index_rules :
    (∀ (i : Nat) (cur : Option Region) (out : List Region) (w : String),
        (ccdStep (i, cur, out) (' ', w)).1 = i + 1 ∧
        (ccdStep (i, cur, out) ('-', w)).1 = i + 1 ∧
        (ccdStep (i, cur, out) ('+', w)).1 = i) ∧
    (∀ (i : Nat) (out : List Region) (w : String),
        ccdStep (i, none, out) ('-', w) = (i + 1, some ⟨i, [w], []⟩, out) ∧
        ccdStep (i, none, out) ('+', w) = (i, some ⟨i, [], [w]⟩, out)) ∧
    computeCompactDiff "the dog ran" "the small dog ran" = [⟨1, [], ["small"]⟩] := by
  refine ⟨?_, ?_, by decide⟩
  · intro i cur out w
    cases cur with
    | none =>
        exact ⟨by rw [ccdStep_space_none], by rw [ccdStep_minus_none],
          by rw [ccdStep_plus_none]⟩
    | some c =>
        exact ⟨by rw [ccdStep_space_some], by rw [ccdStep_minus_some],
          by rw [ccdStep_plus_some]⟩
  · intro i out w
    exact ⟨ccdStep_minus_none i out w, ccdStep_plus_none i out w⟩

set_option maxHeartbeats 1000000 in
/-- C4: the emitted regions are in strictly ascending non-overlapping index
order with at least one kept word between consecutive regions
(`r1.index + r1.remove.length + 1 ≤ r2.index`), and each region's removed and
added words appear in their original relative order (they are sublists of the
base and other word lists). -/
theorem claim_C4_regions : ∀ (b o : String),
    List.Chain' (fun r1 r2 => r1.index + r1.remove.length + 1 ≤ r2.index)
        (computeCompactDiff b o) ∧
    ∀ r ∈ computeCompactDiff b o,
        List.Sublist r.remove (pySplit b) ∧ List.Sublist r.add (pySplit o) := by
  intro b o
  have hchain := matchBlocks_chain (pySplit b) (pySplit o)
  constructor
  · rw [computeCompactDiff_regionsSpec]
    exact regionsSpec_chain' (pySplit b) (pySplit o) _ 0 0 hchain
  · rw [computeCompactDiff_regionsSpec]
    intro r hr
    have hm := regionsSpec_mem_facts (pySplit b) (pySplit o)
      (mergeBlocks 0 0 0 (matchBlocks (pySplit b) (pySplit o))) 0 0 hchain r hr
    exact ⟨hm.1, hm.2.1⟩

theorem claim_C4_witness :
    List.Chain' (fun r1 r2 => r1.index + r1.remove.length + 1 ≤ r2.index)
        (computeCompactDiff "a c" "a b") ∧
    (List.Sublist (Region.mk 1 ["c"] ["b"]).remove (pySplit "a c") ∧
      List.Sublist (Region.mk 1 ["c"] ["b"]).add (pySplit "a b")) :=
  ⟨(claim_C4_regions "a c" "a b").1,
   (claim_C4_regions "a c" "a b").2 ⟨1, ["c"], ["b"]⟩ (by decide)⟩

/-- C5: a verse whose edition word list equals the base word list diffs to the
empty region list, and the per-verse output loop omits that verse from the
version's mapping. -/
theorem claim_C5_identity :
    ∀ (verse b o : String) (rest : List (String × String × String)),
      pySplit b = pySplit o →
      computeCompactDiff b o = [] ∧
      versionDiffs ((verse, b, o) :: rest) = versionDiffs rest := by
  intro verse b o rest h
  have hd := computeCompactDiff_self b o h
  refine ⟨hd, ?_⟩
  simp [versionDiffs, List.filterMap_cons, hd]

theorem claim_C5_witness :
    pySplit "the dog ran" = pySplit "the dog ran" ∧
    (computeCompactDiff "the dog ran" "the dog ran" = [] ∧
      versionDiffs [("Enos 1:1", "the dog ran", "the dog ran")] = versionDiffs []) :=
  ⟨rfl, claim_C5_identity "Enos 1:1" "the dog ran" "the dog ran" [] rfl⟩

/-- C6: with an empty base word list and a non-empty other word list the
script consists solely of insert lines and the diff is the single region at
index 0 whose remove list is empty and whose add list is the whole other word
list. -/
theorem claim_C6_empty_base :
    ∀ (b o : String), pySplit b = [] → pySplit o ≠ [] →
      ndiffModel (pySplit b) (pySplit o) = dumpLines '+' (pySplit o) ∧
      computeCompactDiff b o = [⟨0, [], pySplit o⟩] := by
  intro b o h1 h2
  refine ⟨by rw [h1]; exact ndiffModel_nil_left _, ?_⟩
  show compactScan (ndiffModel (pySplit b) (pySplit o)) = _
  rw [h1]
  exact compactScan_nil_left _ h2

theorem claim_C6_witness :
    pySplit "" = [] ∧ pySplit "hello" ≠ [] ∧
    (ndiffModel (pySplit "") (pySplit "hello") = dumpLines '+' (pySplit "hello") ∧
      computeCompactDiff "" "hello" = [⟨0, [], pySplit "hello"⟩]) :=
  ⟨rfl, by decide, claim_C6_empty_base "" "hello" rfl (by decide)⟩

/-- C7: the alignment-and-compaction core is a total function of its two
inputs (in this model every case, including empty sequences, is covered by
the same defining equations), and it never references the base out of range:
every region replays within the bounds of the base word list. -/
theorem claim_C7_total : ∀ (b o : String), ∀ r ∈ computeCompactDiff b o,
    r.index + r.remove.length ≤ (pySplit b).length := by
  intro b o r hr
  have hchain := matchBlocks_chain (pySplit b) (pySplit o)
  rw [computeCompactDiff_regionsSpec] at hr
  exact (regionsSpec_mem_facts (pySplit b) (pySplit o) _ 0 0 hchain r hr).2.2

theorem claim_C7_witness :
    (Region.mk 1 ["y"] ["q"]) ∈ computeCompactDiff "x y z" "x q z" ∧
    (Region.mk 1 ["y"] ["q"]).index + (Region.mk 1 ["y"] ["q"]).remove.length
        ≤ (pySplit "x y z").length :=
  ⟨by decide, claim_C7_total "x y z" "x q z" ⟨1, ["y"], ["q"]⟩ (by decide)⟩

/-- C8: every emitted change-region has a non-empty remove list or a
non-empty add list; no region with both lists empty is ever emitted. -/
theorem claim_C8_nonempty : ∀ (b o : String), ∀ r ∈ computeCompactDiff b o,
    r.remove ≠ [] ∨ r.add ≠ [] := by
  intro b o
  exact compactScan_inv (fun r => r.remove ≠ [] ∨ r.add ≠ []) (fun _ h => h)
    (ndiffModel (pySplit b) (pySplit o)) 0 none [] (by simp) (fun c hc => nomatch hc)

theorem claim_C8_witness :
    (Region.mk 1 ["q"] ["r"]) ∈ computeCompactDiff "p q" "p r" ∧
    ((Region.mk 1 ["q"] ["r"]).remove ≠ [] ∨ (Region.mk 1 ["q"] ["r"]).add ≠ []) :=
  ⟨by decide, claim_C8_nonempty "p q" "p r" ⟨1, ["q"], ["r"]⟩ (by decide)⟩

/-- C9 (amended): `join_words` appends a punctuation mark of the set directly
to the text built so far, with no intervening space, so after whitespace
tokenization the mark fuses with the last preceding word whenever one exists;
with no preceding word the mark becomes a standalone token. -/
theorem claim_C9_punct_attach : ∀ (ws : List String) (p : String), p ∈ PUNCT →
    joinWords (ws ++ [p]) = joinWords ws ++ p :=
  fun ws p hp => joinWords_append_punct ws p hp

theorem claim_C9_witness :
    "," ∈ PUNCT ∧
    joinWords (["the", "dog"] ++ [","]) = joinWords ["the", "dog"] ++ "," ∧
    joinWords ["the", "dog", ","] = "the dog," :=
  ⟨by decide, claim_C9_punct_attach ["the", "dog"] "," (by decide), by decide⟩

/-- C9 counterexample: a punctuation mark with no preceding word survives as
a standalone comparison unit, and the aligner removes or inserts it on its
own, contradicting the claim that this can never happen. -/
theorem claim_C9_counterexample :
    "," ∈ PUNCT ∧
    pySplit (joinWords [",", "dog"]) = [",", "dog"] ∧
    computeCompactDiff (joinWords ["dog"]) (joinWords [",", "dog"]) = [⟨0, [], [","]⟩] :=
  ⟨by decide, by decide, by decide⟩

/-- C10: the diff depends only on the whitespace-split word lists of its two
arguments, and two texts with equal word lists diff to the empty region
list. -/
theorem claim_C10_whitespace :
    (∀ (b1 b2 o1 o2 : String), pySplit b1 = pySplit b2 → pySplit o1 = pySplit o2 →
        computeCompactDiff b1 o1 = computeCompactDiff b2 o2) ∧
    (∀ (b o : String), pySplit b = pySplit o → computeCompactDiff b o = []) := by
  constructor
  · intro b1 b2 o1 o2 h1 h2
    show compactScan (ndiffModel (pySplit b1) (pySplit o1)) = _
    rw [h1, h2]
    rfl
  · exact fun b o h => computeCompactDiff_self b o h

theorem claim_C10_witness :
    pySplit "the  dog" = pySplit "the dog" ∧
    computeCompactDiff "the  dog" "the dog run" = computeCompactDiff "the dog" "the dog run" ∧
    computeCompactDiff "the  dog" "the dog" = [] :=
  ⟨by decide,
   (claim_C10_whitespace).1 "the  dog" "the dog" "the dog run" "the dog run" (by decide) rfl,
   (claim_C10_whitespace).2 "the  dog" "the dog" (by decide)⟩
